import Mathlib

/-!
# Pairing heap (`src/pairing_heap.h`): embedding and verified properties

The C++ class `pairing_heap<TYPE, COMP>` is embedded as pure functions over an
immutable tree.

* A `Node*` that owns what it points to (`root`, `child`, `next`) is a value of
  `Node α`: either `null` or a node with its element and its two owned links.
* The non-owning `parent` pointer is not stored.  The code only ever reads it in
  `updateElt`, to walk from a node towards the root; in the embedding a handle
  is the chain of `child`/`next` links leading from the root to the node, and
  the parent of a node is the node that owns the sibling chain it sits on
  (`parentOf`).  That is the value the field has in the C++: `meld` is the only
  place that hangs a node under another and it sets `parent` in the same
  breath, fresh nodes start with a null `parent`, and `pop` clears it on the new
  root.  The second embedding (`Mem`, further down) keeps the field and the
  addresses of the nodes; `Mem.back_references_exact` proves that the field
  holds the address of the node at `parentOf`, and `Mem.forget_operations` that
  the two embeddings do the same to the elements.
* The `std::deque<Node*>` work lists are lists, front first.
* `sizeOf` is an `int` that is only decremented when non-zero; it is a `Nat`
  here (the count of live nodes, far below the `int` range on any machine that
  can hold the nodes).
* A dereference of a null pointer has no result: the operations that can do so
  return `Option`.
-/

namespace PairingHeap

/-- A possibly-null owning pointer to a heap node (`Node*`): `elt`, `child`
and `next` are the fields of the class `Node`. -/
inductive Node (α : Type) where
  | null : Node α
  | mk (elt : α) (child : Node α) (next : Node α) : Node α
deriving DecidableEq

/-- The data members of `pairing_heap`: the comparison functor `compare`, the
element count `sizeOf` and the `root` pointer. -/
structure pairing_heap (α : Type) where
  compare : α → α → Bool
  sizeOf : Nat
  root : Node α

/-- One pointer hop inside the tree. -/
inductive Link where
  | child : Link
  | next : Link
deriving DecidableEq

/-- A handle (`Node*` given out by `add_node`) names a node by its position:
the links to follow from the root. -/
abbrev Handle := List Link

variable {α : Type}

/-- Allocation `new Node(ielt)`: the constructor of `Node` sets all links to `NULL`. -/
def Node.new (ielt : α) : Node α := .mk ielt .null .null

/-- Member `meld(first, second)`, lines 146-161. -/
def meld (compare : α → α → Bool) (first second : Node α) : Node α :=
  match first, second with
  | .null, _ => second
  | _, .null => first
  | .mk e1 c1 n1, .mk e2 c2 n2 =>
    if compare e1 e2 then
      -- first->next = second->child; second->child = first; return second
      .mk e2 (.mk e1 c1 c2) n2
    else
      -- second->next = first->child; first->child = second; return first
      .mk e1 (.mk e2 c2 c1) n1

/-- Member `swapper(a, total)`, lines 164-169: the guarded recursive calls on
`a->child` and `a->next` are the `null` case. -/
def swapper : Node α → List (Node α) → List (Node α)
  | .null, total => total
  | .mk elt child next, total => Node.new elt :: swapper next (swapper child total)

/-- The loop `while(New.size() != 1) { first = front, pop; second = front, pop;
first = meld(first, second); push_back(first); }` followed by reading
`front()`, as it appears in `pop`, `update_priorities`, the copy constructor
and `operator=`.  The first argument bounds the number of iterations; it is
`none` when the bound is used up or when `front()` is read on an empty deque. -/
def meld_queue (compare : α → α → Bool) : Nat → List (Node α) → Option (Node α)
  | _, [] => none
  | _, [out] => some out
  | 0, _ :: _ :: _ => none
  | fuel + 1, first :: second :: rest =>
    meld_queue compare fuel (rest ++ [meld compare first second])

/-- The loop of `pop` that walks the `next` chain and pushes every node on the
front of `children` (lines 295-300). -/
def push_children : Node α → List (Node α) → List (Node α)
  | .null, children => children
  | .mk e c next, children => push_children next (.mk e c next :: children)

/-- Constructor `pairing_heap(COMP comp)`, lines 189-194. -/
def pairing_heap.empty_heap (comp : α → α → Bool) : pairing_heap α :=
  { compare := comp, sizeOf := 0, root := .null }

/-- Member `size()`, line 49. -/
def pairing_heap.size (h : pairing_heap α) : Nat := h.sizeOf

/-- Member `empty()`, line 53: `!sizeOf`. -/
def pairing_heap.empty (h : pairing_heap α) : Bool := h.sizeOf == 0

/-- Member `top()`, line 320: `root->elt`; no result on a null root. -/
def pairing_heap.top (h : pairing_heap α) : Option α :=
  match h.root with
  | .null => none
  | .mk elt _ _ => some elt

/-- Member `add_node(val)`, lines 323-333.  The second component is the returned
`Node*`: the new node is the root when the heap was empty or when the old root
lost the comparison in `meld`, and the first child of the root otherwise. -/
def pairing_heap.add_node (h : pairing_heap α) (val : α) : pairing_heap α × Handle :=
  let input := Node.new val
  match h.root with
  | .null => ({ h with root := input, sizeOf := h.sizeOf + 1 }, [])
  | .mk e c n =>
    ({ h with root := meld h.compare (.mk e c n) input, sizeOf := h.sizeOf + 1 },
      if h.compare e val then [] else [Link.child])

/-- Member `push(val)`, line 35. -/
def pairing_heap.push (h : pairing_heap α) (val : α) : pairing_heap α := (h.add_node val).1

/-- The range constructor, lines 173-187. -/
def pairing_heap.from_range (range : List α) (comp : α → α → Bool) : pairing_heap α :=
  range.foldl (fun h x => (h.add_node x).1) (pairing_heap.empty_heap comp)

/-- Member `pop()`, lines 280-317. -/
def pairing_heap.pop (h : pairing_heap α) : Option (pairing_heap α) :=
  if h.sizeOf = 0 then some h
  else
    match h.root with
    | .null => none
    | .mk _ .null _ => some { h with sizeOf := h.sizeOf - 1, root := .null }
    | .mk _ (.mk ce cc cn) _ =>
      let children := push_children cn [.mk ce cc cn]
      match meld_queue h.compare children.length children with
      | none => none
      | some .null => none
      | some (.mk oe oc _) => some { h with sizeOf := h.sizeOf - 1, root := .mk oe oc .null }

/-- Member `update_priorities()`, lines 258-278. -/
def pairing_heap.update_priorities (h : pairing_heap α) : Option (pairing_heap α) :=
  if h.sizeOf = 0 then some h
  else
    match h.root with
    | .null => none
    | .mk e c n =>
      let New := swapper (.mk e c n) []
      match meld_queue h.compare New.length New with
      | none => none
      | some tot => some { h with root := tot }

/-- The element stored in the node a handle points to (`*node`, line 82);
`none` when the handle leads to no node. -/
def eltAt : Node α → Handle → Option α
  | .null, _ => none
  | .mk e _ _, [] => some e
  | .mk _ c _, .child :: r => eltAt c r
  | .mk _ _ n, .next :: r => eltAt n r

/-- The assignment `node->elt = x` through a handle. -/
def setElt : Node α → Handle → α → Node α
  | .null, _, _ => .null
  | .mk _ c n, [], x => .mk x c n
  | .mk e c n, .child :: r, x => .mk e (setElt c r x) n
  | .mk e c n, .next :: r, x => .mk e c (setElt n r x)

/-- The chain `node->parent, node->parent->parent, ...` up to the root: the
parent of a node is the node whose `child` link starts the sibling chain the
node is on, so the chain lists the positions just before each `child` link of
the handle, nearest first. -/
def parents : Handle → List Handle
  | [] => []
  | l :: r => (parents r).map (fun p => l :: p) ++ (if l = Link.child then [[]] else [])

/-- The pointer `node->parent`; `none` is `NULL`. -/
def parentOf (node : Handle) : Option Handle := (parents node).head?

/-- The loop of `updateElt`, lines 347-355.  The first list holds `Parent` and
the pointers `Parent = Parent->parent` will take next; it being empty is
`Parent == NULL`. -/
def bubble_up (compare : α → α → Bool) : Node α → List Handle → Handle → Node α
  | root, [], _ => root
  | root, Parent :: up, cNode =>
    match eltAt root Parent, eltAt root cNode with
    | some p, some c =>
      if compare p c then
        -- hold_val = Parent->elt; Parent->elt = cNode->elt; cNode->elt = hold_val
        bubble_up compare (setElt (setElt root Parent c) cNode p) up Parent
      else root
    | _, _ => root

/-- Member `updateElt(node, new_value)`, lines 335-357.  `node = none` is the null
handle.  A handle that leads to no node (a dangling pointer in the C++) is
outside the embedding: nothing is written through it. -/
def pairing_heap.updateElt (h : pairing_heap α) (node : Option Handle) (new_value : α) :
    pairing_heap α :=
  match node with
  | none => h
  | some node =>
    let root1 := setElt h.root node new_value
    match parents node with
    | [] => { h with root := root1 }
    | Parent :: up =>
      match eltAt root1 Parent with
      | none => { h with root := root1 }
      | some p =>
        if h.compare new_value p then { h with root := root1 }
        else { h with root := bubble_up h.compare root1 (Parent :: up) node }

/-- The copy constructor, lines 196-217.  It never assigns `root` when
`other.sizeOf == 0`, so the member keeps whatever the storage of the new object
held: `uninit_root` stands for that indeterminate value. -/
def pairing_heap.copy (uninit_root : Node α) (other : pairing_heap α) :
    Option (pairing_heap α) :=
  if other.sizeOf = 0 then
    some { compare := other.compare, sizeOf := other.sizeOf, root := uninit_root }
  else
    match other.root with
    | .null => none
    | .mk e c n =>
      let New := swapper (.mk e c n) []
      match meld_queue other.compare New.length New with
      | none => none
      | some tot => some { compare := other.compare, sizeOf := other.sizeOf, root := tot }

/-- The right-hand side of `operator=`: the assigned-to object itself
(`this == &rhs`) or a different object. -/
inductive Rhs (α : Type) where
  | self : Rhs α
  | other (rhs : pairing_heap α) : Rhs α

/-- Copy assignment `operator=`, lines 219-252.  `destroyer(root)` only releases the nodes of
the old tree and leaves no trace in the new state. -/
def pairing_heap.assign (this : pairing_heap α) (rhs : Rhs α) : Option (pairing_heap α) :=
  match rhs with
  | .self => some this
  | .other rhs =>
    if rhs.sizeOf = 0 then
      some { compare := rhs.compare, sizeOf := rhs.sizeOf, root := .null }
    else
      match rhs.root with
      | .null => none
      | .mk e c n =>
        let New := swapper (.mk e c n) []
        match meld_queue rhs.compare New.length New with
        | none => none
        | some tot => some { compare := rhs.compare, sizeOf := rhs.sizeOf, root := tot }

/-! ## Observations used to state the properties -/

/-- Every element reachable from a pointer through `child` and `next` links. -/
def Node.elems : Node α → List α
  | .null => []
  | .mk e c n => e :: (c.elems ++ n.elems)

/-- The number of nodes reachable from a pointer through `child` and `next` links. -/
def Node.count : Node α → Nat
  | .null => 0
  | .mk _ c n => 1 + c.count + n.count

/-- The elements a heap holds: those reachable from its root. -/
def pairing_heap.values (h : pairing_heap α) : List α := h.root.elems

/-- Heap order below a parent value: `compare (parent value) (node value)` is
false for every node of the sibling chain `t`, and so on below each of them.
With `none` the chain has no parent and only the lower levels are checked. -/
def ordered_under (compare : α → α → Bool) : Option α → Node α → Bool
  | _, .null => true
  | pv, .mk e c n =>
    (match pv with
      | none => true
      | some p => !compare p e) && ordered_under compare (some e) c && ordered_under compare pv n

/-- The heap-order predicate of a heap, checked from the root down. -/
def pairing_heap.heap_ordered (h : pairing_heap α) : Bool :=
  ordered_under h.compare none h.root

/-- The pointer is null or leads to a node whose `next` is null. -/
def Node.no_sibling : Node α → Bool
  | .null => true
  | .mk _ _ .null => true
  | .mk _ _ (.mk _ _ _) => false

/-- The structural invariant of the class: `sizeOf` counts the nodes of the
tree and the root has no sibling. -/
def pairing_heap.well_formed (h : pairing_heap α) : Bool :=
  h.sizeOf == h.root.count && h.root.no_sibling

/-- The elements of the tree a pointer leads to, the node's own `next` link
left aside: what a work-list entry stands for while its `next` still holds a
link the loop has yet to overwrite. -/
def Node.tree_elems : Node α → List α
  | .null => []
  | .mk e c _ => e :: c.elems

/-- The elements of all trees of a work list. -/
def forest_elems : List (Node α) → List α
  | [] => []
  | t :: ts => t.tree_elems ++ forest_elems ts

/-- Heap order inside the tree a pointer leads to, its `next` link left aside. -/
def tree_ordered (compare : α → α → Bool) : Node α → Bool
  | .null => true
  | .mk e c _ => ordered_under compare (some e) c

/-- The heap-order predicate, node by node: for every non-root node,
`compare(parent value, node value)` is false. -/
def pairing_heap.heap_order (h : pairing_heap α) : Prop :=
  ∀ (node Parent : Handle) (a b : α), parentOf node = some Parent →
    eltAt h.root Parent = some a → eltAt h.root node = some b → h.compare a b = false

/-- The requirements on a comparison functor: a strict weak ordering. -/
structure StrictWeakOrder (compare : α → α → Bool) : Prop where
  irrefl : ∀ a, compare a a = false
  trans : ∀ a b c, compare a b = true → compare b c = true → compare a c = true
  equiv_trans : ∀ a b c, compare a b = false → compare b a = false →
    compare b c = false → compare c b = false → compare a c = false ∧ compare c a = false

/-- A strict total order: a strict order in which two elements neither of which
is before the other are equal. -/
structure StrictTotalOrder (compare : α → α → Bool) : Prop where
  irrefl : ∀ a, compare a a = false
  trans : ∀ a b c, compare a b = true → compare b c = true → compare a c = true
  total : ∀ a b, compare a b = false → compare b a = false → a = b

/-- The comparator `std::less<int>`. -/
def int_less : Int → Int → Bool := fun a b => decide (a < b)

/-- The comparator `std::greater<int>`. -/
def int_greater : Int → Int → Bool := fun a b => decide (a > b)

/-- A call of one of the mutating member functions. -/
inductive Op (α : Type) where
  | push (val : α) : Op α
  | pop : Op α
  | update_priorities : Op α
  | updateElt (node : Option Handle) (new_value : α) : Op α

/-- Whether a call is a `push` or a `pop`. -/
def Op.is_push_or_pop : Op α → Bool
  | .push _ => true
  | .pop => true
  | _ => false

/-- The heap after one call. -/
def step (h : pairing_heap α) : Op α → Option (pairing_heap α)
  | .push val => some (h.push val)
  | .pop => h.pop
  | .update_priorities => h.update_priorities
  | .updateElt node new_value => some (h.updateElt node new_value)

/-- The heap after a sequence of calls, first call first. -/
def run (h : pairing_heap α) : List (Op α) → Option (pairing_heap α)
  | [] => some h
  | op :: ops =>
    match step h op with
    | none => none
    | some h1 => run h1 ops

/-- The precondition of a call: `updateElt` needs a handle to a live node and
a new value that the comparator does not put before the value stored there. -/
def precondition (h : pairing_heap α) : Op α → Bool
  | .updateElt (some node) new_value =>
    match eltAt h.root node with
    | none => false
    | some old => !h.compare new_value old
  | _ => true

/-- Every call of a sequence is made with its precondition satisfied. -/
def preconditions_hold (h : pairing_heap α) : List (Op α) → Bool
  | [] => true
  | op :: ops =>
    precondition h op &&
      (match step h op with
        | none => true
        | some h1 => preconditions_hold h1 ops)

/-- Every `pop` of a sequence is made on a non-empty heap. -/
def pops_on_non_empty (h : pairing_heap α) : List (Op α) → Bool
  | [] => true
  | op :: ops =>
    (match op with
      | .pop => !h.empty
      | _ => true) &&
      (match step h op with
        | none => true
        | some h1 => pops_on_non_empty h1 ops)

/-- The number of `push` calls in a sequence. -/
def count_push : List (Op α) → Nat
  | [] => 0
  | .push _ :: ops => count_push ops + 1
  | _ :: ops => count_push ops

/-- The number of `pop` calls in a sequence. -/
def count_pop : List (Op α) → Nat
  | [] => 0
  | .pop :: ops => count_pop ops + 1
  | _ :: ops => count_pop ops

/-- The client loop `while (!h.empty()) { out.push_back(h.top()); h.pop(); }`:
the values read and the heap left.  The first argument bounds the number of
rounds; the result is `none` when the bound is used up or a call has no
result. -/
def drain : Nat → pairing_heap α → Option (List α × pairing_heap α)
  | fuel, h =>
    if h.empty then some ([], h)
    else
      match fuel with
      | 0 => none
      | fuel + 1 =>
        match h.top, h.pop with
        | some t, some h1 =>
          match drain fuel h1 with
          | some (out, hf) => some (t :: out, hf)
          | none => none
        | _, _ => none

/-- The values read by alternately calling `top()` and `pop()` until the heap
is empty; `sizeOf` rounds are allowed. -/
def extraction (h : pairing_heap α) : Option (List α) :=
  (drain h.sizeOf h).map (fun r => r.1)

/-- Every `updateElt` of a sequence is given the null handle or a handle to a
node that is in the heap at that moment, whatever the new value. -/
def handles_live (h : pairing_heap α) : List (Op α) → Bool
  | [] => true
  | op :: ops =>
    (match op with
      | .updateElt (some node) _ => (eltAt h.root node).isSome
      | _ => true) &&
      (match step h op with
        | none => true
        | some h1 => handles_live h1 ops)

/-- The links of a tree with the stored elements forgotten: which `child` and
`next` pointers are null and where the others lead. -/
def Node.shape : Node α → Node Unit
  | .null => .null
  | .mk _ c n => .mk () c.shape n.shape

/-- The tree a pointer leads to, taken off its sibling chain: the node with its
`next` link cleared. -/
def Node.detach : Node α → Node α
  | .null => .null
  | .mk e c _ => .mk e c .null

/-- The children list that starts at a `child` pointer: the trees of the
sibling chain in `next` order, each taken off the chain. -/
def child_list : Node α → List (Node α)
  | .null => []
  | .mk e c n => .mk e c .null :: child_list n

/-- The first pass of the pairing the specification describes for `pop`
(section 4.4, "repeatedly meld adjacent pairs left-to-right"): the first tree
with the second, the third with the fourth, and so on; a last tree without a
partner stays as it is.  This definition follows the words of the
specification, not the code. -/
def spec_pair_left_to_right (compare : α → α → Bool) : List (Node α) → List (Node α)
  | a :: b :: rest => meld compare a b :: spec_pair_left_to_right compare rest
  | [a] => [a]
  | [] => []

/-- The second pass of the pairing the specification describes for `pop`
("then meld the resulting list's trees right-to-left ... until exactly one
tree remains"): starting from the last tree, each tree to its left is melded
with what has been built so far.  This definition follows the words of the
specification, not the code. -/
def spec_fold_right_to_left (compare : α → α → Bool) : List (Node α) → Node α
  | [] => .null
  | [t] => t
  | t :: u :: rest => meld compare t (spec_fold_right_to_left compare (u :: rest))

/-- The two-pass pairing of the specification: the first pass followed by the
second. -/
def spec_two_pass (compare : α → α → Bool) (trees : List (Node α)) : Node α :=
  spec_fold_right_to_left compare (spec_pair_left_to_right compare trees)

/-- The right-to-left pass with the arguments of `meld` in the other order,
the built-up tree first: the other way the words of the specification can be
read. -/
def spec_fold_right_to_left_flipped (compare : α → α → Bool) : List (Node α) → Node α
  | [] => .null
  | [t] => t
  | t :: u :: rest => meld compare (spec_fold_right_to_left_flipped compare (u :: rest)) t

/-! ## The same operations with addresses and the `parent` field

To state what the code stores in `parent`, the operations are embedded a
second time over nodes that carry their address and their `parent` field.
Everything else is as above: `child` and `next` own what they point to, a
handle is a position, and `new Node` hands out the addresses `fresh`,
`fresh + 1`, ... of an allocator that never gives the address of a live node. -/

namespace Mem

/-- The part of a `Node` object that is not an owning link: where it lies, its
`elt` and its `parent` pointer (`none` is `NULL`). -/
structure Cell (α : Type) where
  addr : Nat
  elt : α
  parent : Option Nat
deriving DecidableEq

/-- The data members of `pairing_heap`, with the next address the allocator
will hand out. -/
structure pairing_heap (α : Type) where
  compare : α → α → Bool
  sizeOf : Nat
  root : Node (Cell α)
  fresh : Nat

/-- Allocation `new Node(ielt)` at address `a`: line 75 sets `child`, `parent`
and `next` to `NULL`. -/
def new_node (a : Nat) (ielt : α) : Node (Cell α) :=
  .mk { addr := a, elt := ielt, parent := none } .null .null

/-- Member `meld(first, second)`, lines 146-161, the assignment to `parent`
included. -/
def meld (compare : α → α → Bool) (first second : Node (Cell α)) : Node (Cell α) :=
  match first, second with
  | .null, _ => second
  | _, .null => first
  | .mk x1 c1 n1, .mk x2 c2 n2 =>
    if compare x1.elt x2.elt then
      -- first->parent = second; first->next = second->child; second->child = first
      .mk x2 (.mk { x1 with parent := some x2.addr } c1 c2) n2
    else
      -- second->parent = first; second->next = first->child; first->child = second
      .mk x1 (.mk { x2 with parent := some x1.addr } c2 c1) n1

/-- Member `swapper(a, total)`, lines 164-169; the second component is the
allocator's next address. -/
def swapper : Node (Cell α) → List (Node (Cell α)) × Nat → List (Node (Cell α)) × Nat
  | .null, total => total
  | .mk x child next, total =>
    let after_next := swapper next (swapper child total)
    (new_node after_next.2 x.elt :: after_next.1, after_next.2 + 1)

/-- The work-list loop, as `PairingHeap.meld_queue`. -/
def meld_queue (compare : α → α → Bool) :
    Nat → List (Node (Cell α)) → Option (Node (Cell α))
  | _, [] => none
  | _, [out] => some out
  | 0, _ :: _ :: _ => none
  | fuel + 1, first :: second :: rest =>
    meld_queue compare fuel (rest ++ [meld compare first second])

/-- Constructor `pairing_heap(COMP comp)`, lines 189-194, with the allocator
about to hand out `fresh`. -/
def pairing_heap.empty_heap (comp : α → α → Bool) (fresh : Nat) : pairing_heap α :=
  { compare := comp, sizeOf := 0, root := .null, fresh := fresh }

/-- Member `add_node(val)`, lines 323-333; the second component is the address
returned. -/
def pairing_heap.add_node (h : pairing_heap α) (val : α) : pairing_heap α × Nat :=
  let input := new_node h.fresh val
  match h.root with
  | .null => ({ h with root := input, sizeOf := h.sizeOf + 1, fresh := h.fresh + 1 }, h.fresh)
  | .mk x c n =>
    ({ h with root := meld h.compare (.mk x c n) input, sizeOf := h.sizeOf + 1,
              fresh := h.fresh + 1 }, h.fresh)

/-- The range constructor, lines 173-187. -/
def pairing_heap.from_range (range : List α) (comp : α → α → Bool) (fresh : Nat) :
    pairing_heap α :=
  range.foldl (fun h x => (h.add_node x).1) (pairing_heap.empty_heap comp fresh)

/-- Member `pop()`, lines 280-317; lines 314-315 clear `parent` and `next` of
the new root. -/
def pairing_heap.pop (h : pairing_heap α) : Option (pairing_heap α) :=
  if h.sizeOf = 0 then some h
  else
    match h.root with
    | .null => none
    | .mk _ .null _ => some { h with sizeOf := h.sizeOf - 1, root := .null }
    | .mk _ (.mk cx cc cn) _ =>
      let children := push_children cn [.mk cx cc cn]
      match meld_queue h.compare children.length children with
      | none => none
      | some .null => none
      | some (.mk o oc _) =>
        some { h with sizeOf := h.sizeOf - 1, root := .mk { o with parent := none } oc .null }

/-- Member `update_priorities()`, lines 258-278. -/
def pairing_heap.update_priorities (h : pairing_heap α) : Option (pairing_heap α) :=
  if h.sizeOf = 0 then some h
  else
    match h.root with
    | .null => none
    | .mk x c n =>
      let New := swapper (.mk x c n) ([], h.fresh)
      match meld_queue h.compare New.1.length New.1 with
      | none => none
      | some tot => some { h with root := tot, fresh := New.2 }

/-- The assignment `node->elt = x` through a handle. -/
def set_elt : Node (Cell α) → Handle → α → Node (Cell α)
  | .null, _, _ => .null
  | .mk c ch n, [], x => .mk { c with elt := x } ch n
  | .mk c ch n, .child :: r, x => .mk c (set_elt ch r x) n
  | .mk c ch n, .next :: r, x => .mk c ch (set_elt n r x)

/-- The loop of `updateElt`, lines 347-355, as `PairingHeap.bubble_up`. -/
def bubble_up (compare : α → α → Bool) :
    Node (Cell α) → List Handle → Handle → Node (Cell α)
  | root, [], _ => root
  | root, Parent :: up, cNode =>
    match eltAt root Parent, eltAt root cNode with
    | some p, some c =>
      if compare p.elt c.elt then
        bubble_up compare (set_elt (set_elt root Parent c.elt) cNode p.elt) up Parent
      else root
    | _, _ => root

/-- Member `updateElt(node, new_value)`, lines 335-357, as
`PairingHeap.pairing_heap.updateElt`. -/
def pairing_heap.updateElt (h : pairing_heap α) (node : Option Handle) (new_value : α) :
    pairing_heap α :=
  match node with
  | none => h
  | some node =>
    let root1 := set_elt h.root node new_value
    match parents node with
    | [] => { h with root := root1 }
    | Parent :: up =>
      match eltAt root1 Parent with
      | none => { h with root := root1 }
      | some p =>
        if h.compare new_value p.elt then { h with root := root1 }
        else { h with root := bubble_up h.compare root1 (Parent :: up) node }

/-- The copy constructor, lines 196-217; `uninit_root` is what the storage of
the new object held where `root` lies. -/
def pairing_heap.copy (uninit_root : Node (Cell α)) (other : pairing_heap α) :
    Option (pairing_heap α) :=
  if other.sizeOf = 0 then
    some { compare := other.compare, sizeOf := other.sizeOf, root := uninit_root,
           fresh := other.fresh }
  else
    match other.root with
    | .null => none
    | .mk x c n =>
      let New := swapper (.mk x c n) ([], other.fresh)
      match meld_queue other.compare New.1.length New.1 with
      | none => none
      | some tot =>
        some { compare := other.compare, sizeOf := other.sizeOf, root := tot, fresh := New.2 }

/-- A call of a mutating member function, or the replacement of the heap by a
copy constructed from it. -/
inductive Op (α : Type) where
  | push (val : α) : Op α
  | pop : Op α
  | update_priorities : Op α
  | updateElt (node : Option Handle) (new_value : α) : Op α
  | copy (uninit_root : Node (Cell α)) : Op α

/-- The heap after one call. -/
def step (h : pairing_heap α) : Op α → Option (pairing_heap α)
  | .push val => some (h.add_node val).1
  | .pop => h.pop
  | .update_priorities => h.update_priorities
  | .updateElt node new_value => some (h.updateElt node new_value)
  | .copy uninit_root => pairing_heap.copy uninit_root h

/-- The heap after a sequence of calls, first call first. -/
def run (h : pairing_heap α) : List (Op α) → Option (pairing_heap α)
  | [] => some h
  | op :: ops =>
    match step h op with
    | none => none
    | some h1 => run h1 ops

/-- What a call needs here: `updateElt` a null handle or a handle to a live
node, and copy construction a source that is not empty. -/
def admissible (h : pairing_heap α) : Op α → Bool
  | .updateElt (some node) _ => (eltAt h.root node).isSome
  | .copy _ => h.sizeOf != 0
  | _ => true

/-- Every call of a sequence is admissible when it is made. -/
def all_admissible (h : pairing_heap α) : List (Op α) → Bool
  | [] => true
  | op :: ops =>
    admissible h op &&
      (match step h op with
        | none => true
        | some h1 => all_admissible h1 ops)

/-- Exactness of the `parent` fields below a parent address: every node of the
sibling chain has `parent` equal to `pa`, and so on below each of them. -/
def exact_under : Option Nat → Node (Cell α) → Bool
  | _, .null => true
  | pa, .mk x c n => (x.parent == pa) && exact_under (some x.addr) c && exact_under pa n

/-- Exactness inside the tree a pointer leads to, the node's own `parent` and
`next` left aside. -/
def tree_exact : Node (Cell α) → Bool
  | .null => true
  | .mk x c _ => exact_under (some x.addr) c

/-- The back-references of a heap are exact: the root has a null `parent` and
a null `next`, and every node of a children list has the owner of the list as
its `parent`. -/
def pairing_heap.parents_exact (h : pairing_heap α) : Bool :=
  exact_under none h.root && h.root.no_sibling

/-- The addresses of the nodes reachable from a pointer. -/
def addrs (t : Node (Cell α)) : List Nat := t.elems.map (fun c => c.addr)

/-- The addresses of the trees of a work list, their own `next` left aside. -/
def forest_addrs (l : List (Node (Cell α))) : List Nat :=
  (forest_elems l).map (fun c => c.addr)

/-- The invariant every admissible call keeps: `sizeOf` counts the nodes, the
back-references are exact, and the live nodes lie at different addresses, all
below the allocator's next address. -/
def pairing_heap.invariant (h : pairing_heap α) : Prop :=
  h.sizeOf = h.root.count ∧ h.parents_exact = true ∧ (addrs h.root).Nodup ∧
    ∀ a ∈ addrs h.root, a < h.fresh

/-- The tree with the `parent` fields and addresses forgotten: the node of the
first embedding. -/
def forget : Node (Cell α) → Node α
  | .null => .null
  | .mk x c n => .mk x.elt (forget c) (forget n)

/-- The heap of the first embedding that a heap with addresses stands for. -/
def pairing_heap.forget (h : pairing_heap α) : PairingHeap.pairing_heap α :=
  { compare := h.compare, sizeOf := h.sizeOf, root := Mem.forget h.root }

end Mem

/-! ## Comparators -/

theorem StrictWeakOrder.asymm {compare : α → α → Bool} (hc : StrictWeakOrder compare)
    {a b : α} (hab : compare a b = true) : compare b a = false := by
  cases hba : compare b a with
  | false => rfl
  | true =>
    have h1 := hc.trans a b a hab hba
    rw [hc.irrefl a] at h1
    exact absurd h1 (by decide)

theorem StrictWeakOrder.neg_trans {compare : α → α → Bool} (hc : StrictWeakOrder compare)
    {a b c : α} (hab : compare a b = false) (hbc : compare b c = false) :
    compare a c = false := by
  cases hac : compare a c with
  | false => rfl
  | true =>
    have hba : compare b a = false := by
      cases hba : compare b a with
      | false => rfl
      | true => rw [hc.trans b a c hba hac] at hbc; exact absurd hbc (by decide)
    have hcb : compare c b = false := by
      cases hcb : compare c b with
      | false => rfl
      | true => rw [hc.trans a c b hac hcb] at hab; exact absurd hab (by decide)
    have h1 := (hc.equiv_trans a b c hab hba hbc hcb).1
    rw [hac] at h1
    exact absurd h1 (by decide)

theorem StrictTotalOrder.toWeak {compare : α → α → Bool} (hc : StrictTotalOrder compare) :
    StrictWeakOrder compare := by
  refine ⟨hc.irrefl, hc.trans, ?_⟩
  intro a b c hab hba hbc hcb
  have e1 := hc.total a b hab hba
  have e2 := hc.total b c hbc hcb
  subst e1; subst e2
  exact ⟨hc.irrefl a, hc.irrefl a⟩

theorem int_less_total : StrictTotalOrder int_less := by
  refine ⟨?_, ?_, ?_⟩
  · intro a; simp [int_less]
  · intro a b c; simp only [int_less, decide_eq_true_eq]; omega
  · intro a b; simp only [int_less, decide_eq_false_iff_not]; omega

theorem int_greater_total : StrictTotalOrder int_greater := by
  refine ⟨?_, ?_, ?_⟩
  · intro a; simp [int_greater]
  · intro a b c; simp only [int_greater, decide_eq_true_eq]; omega
  · intro a b; simp only [int_greater, decide_eq_false_iff_not]; omega

/-! ## Elements and node counts -/

theorem count_eq_length (t : Node α) : t.count = t.elems.length := by
  induction t with
  | null => rfl
  | mk e c n ihc ihn => simp [Node.count, Node.elems, ihc, ihn]; omega

theorem forest_elems_append (l1 l2 : List (Node α)) :
    forest_elems (l1 ++ l2) = forest_elems l1 ++ forest_elems l2 := by
  induction l1 with
  | nil => rfl
  | cons t ts ih => simp [forest_elems, ih]

/-! ## `meld` -/

theorem meld_tree_elems (compare : α → α → Bool) (a b : Node α) :
    (meld compare a b).tree_elems.Perm (a.tree_elems ++ b.tree_elems) := by
  cases a with
  | null => simp [meld, Node.tree_elems]
  | mk e1 c1 n1 =>
    cases b with
    | null => simp [meld, Node.tree_elems]
    | mk e2 c2 n2 =>
      by_cases hcmp : compare e1 e2 = true
      · simp only [meld, hcmp, if_true, Node.tree_elems, Node.elems]
        have : (e2 :: e1 :: (c1.elems ++ c2.elems)).Perm (e1 :: (c1.elems ++ e2 :: c2.elems)) := by
          refine (List.Perm.swap e1 e2 _).trans (List.Perm.cons e1 ?_)
          exact List.perm_middle.symm
        simpa using this
      · simp only [meld, hcmp, Node.tree_elems, Node.elems]
        have : (e1 :: e2 :: (c2.elems ++ c1.elems)).Perm (e1 :: (c1.elems ++ e2 :: c2.elems)) := by
          refine List.Perm.cons e1 ?_
          refine List.Perm.trans ?_ List.perm_middle.symm
          exact List.Perm.cons e2 List.perm_append_comm
        simpa using this

theorem meld_tree_ordered {compare : α → α → Bool}
    (hasym : ∀ a b, compare a b = true → compare b a = false) (a b : Node α)
    (ha : tree_ordered compare a = true) (hb : tree_ordered compare b = true) :
    tree_ordered compare (meld compare a b) = true := by
  cases a with
  | null => simpa [meld] using hb
  | mk e1 c1 n1 =>
    cases b with
    | null => simpa [meld] using ha
    | mk e2 c2 n2 =>
      simp only [tree_ordered] at ha hb
      by_cases hcmp : compare e1 e2 = true
      · simp [meld, hcmp, tree_ordered, ordered_under, ha, hb, hasym e1 e2 hcmp]
      · simp only [Bool.not_eq_true] at hcmp
        simp [meld, hcmp, tree_ordered, ordered_under, ha, hb]

theorem meld_ne_null (compare : α → α → Bool) (a b : Node α) (ha : a ≠ .null) :
    meld compare a b ≠ .null := by
  cases a with
  | null => exact absurd rfl ha
  | mk e1 c1 n1 =>
    cases b with
    | null => simp [meld]
    | mk e2 c2 n2 =>
      by_cases hcmp : compare e1 e2 = true <;> simp [meld, hcmp]

theorem meld_no_sibling (compare : α → α → Bool) (a b : Node α)
    (ha : a.no_sibling = true) (hb : b.no_sibling = true) :
    (meld compare a b).no_sibling = true := by
  match a, ha, b, hb with
  | .null, _, b, hb => simpa [meld] using hb
  | .mk e1 c1 .null, _, .null, _ => simp [meld, Node.no_sibling]
  | .mk e1 c1 .null, _, .mk e2 c2 .null, _ =>
    by_cases hcmp : compare e1 e2 = true <;> simp [meld, hcmp, Node.no_sibling]

/-! ## The work-list loop -/

theorem meld_queue_spec (compare : α → α → Bool) (fuel : Nat) :
    ∀ l : List (Node α), l ≠ [] → l.length ≤ fuel + 1 →
      ∃ out, meld_queue compare fuel l = some out ∧
        out.tree_elems.Perm (forest_elems l) ∧
        ((∀ t ∈ l, t ≠ .null) → out ≠ .null) ∧
        ((∀ t ∈ l, t.no_sibling = true) → out.no_sibling = true) ∧
        ((∀ a b, compare a b = true → compare b a = false) →
          (∀ t ∈ l, tree_ordered compare t = true) → tree_ordered compare out = true) := by
  induction fuel with
  | zero =>
    intro l hne hlen
    match l, hne, hlen with
    | [t], _, _ =>
      exact ⟨t, rfl, by simp [forest_elems], fun h => h t (by simp), fun h => h t (by simp),
        fun _ h => h t (by simp)⟩
    | _ :: _ :: _, _, hlen => simp at hlen
  | succ fuel ih =>
    intro l hne hlen
    match l, hne, hlen with
    | [t], _, _ =>
      exact ⟨t, rfl, by simp [forest_elems], fun h => h t (by simp), fun h => h t (by simp),
        fun _ h => h t (by simp)⟩
    | first :: second :: rest, _, hlen =>
      have hlen2 : (rest ++ [meld compare first second]).length ≤ fuel + 1 := by
        simp at hlen ⊢; omega
      obtain ⟨out, hout, hperm, hnn, hns, hord⟩ :=
        ih (rest ++ [meld compare first second]) (by simp) hlen2
      refine ⟨out, by simpa [meld_queue] using hout, ?_, ?_, ?_, ?_⟩
      · refine hperm.trans ?_
        rw [forest_elems_append]
        simp only [forest_elems, List.append_nil]
        have h1 := meld_tree_elems compare first second
        refine (List.perm_append_comm).trans ?_
        rw [← List.append_assoc]
        exact List.Perm.append_right _ h1
      · intro hall
        apply hnn
        intro t ht
        rcases List.mem_append.1 ht with ht | ht
        · exact hall t (by simp [ht])
        · simp only [List.mem_singleton] at ht
          subst ht
          exact meld_ne_null compare first second (hall first (by simp))
      · intro hall
        apply hns
        intro t ht
        rcases List.mem_append.1 ht with ht | ht
        · exact hall t (by simp [ht])
        · simp only [List.mem_singleton] at ht
          subst ht
          exact meld_no_sibling compare first second (hall first (by simp)) (hall second (by simp))
      · intro hasym hall
        apply hord hasym
        intro t ht
        rcases List.mem_append.1 ht with ht | ht
        · exact hall t (by simp [ht])
        · simp only [List.mem_singleton] at ht
          subst ht
          exact meld_tree_ordered hasym first second (hall first (by simp)) (hall second (by simp))

/-! ## Trees without a sibling -/

theorem no_sibling_elems (t : Node α) (h : t.no_sibling = true) : t.elems = t.tree_elems := by
  match t, h with
  | .null, _ => rfl
  | .mk e c .null, _ => simp [Node.elems, Node.tree_elems]

theorem no_sibling_ordered (compare : α → α → Bool) (t : Node α) (h : t.no_sibling = true) :
    ordered_under compare none t = tree_ordered compare t := by
  match t, h with
  | .null, _ => rfl
  | .mk e c .null, _ => simp [ordered_under, tree_ordered]

theorem ordered_under_none {compare : α → α → Bool} (pv : Option α) (t : Node α)
    (h : ordered_under compare pv t = true) : ordered_under compare none t = true := by
  induction t with
  | null => rfl
  | mk e c n _ ihn =>
    simp only [ordered_under, Bool.and_eq_true] at h ⊢
    exact ⟨⟨trivial, h.1.2⟩, ihn h.2⟩

theorem ordered_under_bound {compare : α → α → Bool} (hc : StrictWeakOrder compare) (p : α)
    (t : Node α) (h : ordered_under compare (some p) t = true) :
    ∀ x ∈ t.elems, compare p x = false := by
  induction t generalizing p with
  | null => intro x hx; simp [Node.elems] at hx
  | mk e c n ihc ihn =>
    simp only [ordered_under, Bool.and_eq_true, Bool.not_eq_true'] at h
    intro x hx
    simp only [Node.elems, List.mem_cons, List.mem_append] at hx
    rcases hx with hx | hx | hx
    · subst hx; exact h.1.1
    · exact hc.neg_trans h.1.1 (ihc e h.1.2 x hx)
    · exact ihn p h.2 x hx

/-! ## The work lists of `pop` and of `swapper` -/

theorem push_children_elems (t : Node α) :
    ∀ acc : List (Node α),
      (forest_elems (push_children t acc)).Perm (t.elems ++ forest_elems acc) := by
  induction t with
  | null => intro acc; simp [push_children, Node.elems]
  | mk e c n _ ihn =>
    intro acc
    simp only [push_children]
    refine (ihn _).trans ?_
    simp only [forest_elems, Node.tree_elems, Node.elems]
    have : (n.elems ++ (e :: c.elems ++ forest_elems acc)).Perm
        ((e :: c.elems) ++ n.elems ++ forest_elems acc) := by
      rw [← List.append_assoc]
      exact List.Perm.append_right _ List.perm_append_comm
    simpa using this

theorem push_children_ne_null (t : Node α) :
    ∀ acc : List (Node α), (∀ x ∈ acc, x ≠ Node.null) →
      ∀ x ∈ push_children t acc, x ≠ Node.null := by
  induction t with
  | null => intro acc hacc; simpa [push_children] using hacc
  | mk e c n _ ihn =>
    intro acc hacc
    simp only [push_children]
    apply ihn
    intro x hx
    rcases List.mem_cons.1 hx with hx | hx
    · subst hx; simp
    · exact hacc x hx

theorem push_children_ordered {compare : α → α → Bool} (pv : Option α) (t : Node α) :
    ∀ acc : List (Node α), ordered_under compare pv t = true →
      (∀ x ∈ acc, tree_ordered compare x = true) →
      ∀ x ∈ push_children t acc, tree_ordered compare x = true := by
  induction t with
  | null => intro acc _ hacc; simpa [push_children] using hacc
  | mk e c n _ ihn =>
    intro acc ht hacc
    simp only [ordered_under, Bool.and_eq_true] at ht
    simp only [push_children]
    apply ihn _ ht.2
    intro x hx
    rcases List.mem_cons.1 hx with hx | hx
    · subst hx; exact ht.1.2
    · exact hacc x hx

theorem push_children_ne_nil (t : Node α) :
    ∀ acc : List (Node α), acc ≠ [] → push_children t acc ≠ [] := by
  induction t with
  | null => intro acc hacc; simpa [push_children] using hacc
  | mk e c n _ ihn => intro acc _; exact ihn _ (by simp)

theorem swapper_elems (t : Node α) :
    ∀ total : List (Node α),
      (forest_elems (swapper t total)).Perm (t.elems ++ forest_elems total) := by
  induction t with
  | null => intro total; simp [swapper, Node.elems]
  | mk e c n ihc ihn =>
    intro total
    simp only [swapper, forest_elems, Node.new, Node.tree_elems, Node.elems, List.cons_append,
      List.nil_append]
    refine List.Perm.cons e ?_
    refine (ihn _).trans ?_
    refine (List.Perm.append_left _ (ihc total)).trans ?_
    rw [← List.append_assoc]
    exact List.Perm.append_right _ List.perm_append_comm

theorem swapper_singletons (t : Node α) :
    ∀ total : List (Node α), (∀ x ∈ total, ∃ e, x = Node.new e) →
      ∀ x ∈ swapper t total, ∃ e, x = Node.new e := by
  induction t with
  | null => intro total htot; simpa [swapper] using htot
  | mk e c n ihc ihn =>
    intro total htot x hx
    simp only [swapper] at hx
    rcases List.mem_cons.1 hx with hx | hx
    · exact ⟨e, hx⟩
    · exact ihn _ (ihc total htot) x hx

/-! ## The operations one by one -/

theorem new_no_sibling (e : α) : (Node.new e).no_sibling = true := rfl

theorem new_tree_ordered (compare : α → α → Bool) (e : α) :
    tree_ordered compare (Node.new e) = true := rfl

theorem well_formed_iff (h : pairing_heap α) :
    h.well_formed = true ↔ h.sizeOf = h.values.length ∧ h.root.no_sibling = true := by
  simp [pairing_heap.well_formed, pairing_heap.values, count_eq_length]

theorem empty_heap_well_formed (comp : α → α → Bool) :
    (pairing_heap.empty_heap comp).well_formed = true := rfl

theorem empty_heap_ordered (comp : α → α → Bool) :
    (pairing_heap.empty_heap comp).heap_ordered = true := rfl

/-- What `add_node` does to the state. -/
theorem add_node_spec (h : pairing_heap α) (val : α) (hwf : h.well_formed = true) :
    (h.add_node val).1.compare = h.compare ∧
    (h.add_node val).1.sizeOf = h.sizeOf + 1 ∧
    (h.add_node val).1.values.Perm (val :: h.values) ∧
    (h.add_node val).1.well_formed = true ∧
    (h.add_node val).1.root ≠ Node.null ∧
    ((∀ a b, h.compare a b = true → h.compare b a = false) → h.heap_ordered = true →
      (h.add_node val).1.heap_ordered = true) := by
  rw [well_formed_iff] at hwf
  obtain ⟨hsize, hns⟩ := hwf
  cases hroot : h.root with
  | null =>
    simp only [pairing_heap.values, hroot, Node.elems, List.length_nil] at hsize
    refine ⟨?_, ?_, ?_, ?_, ?_, ?_⟩ <;>
      simp [pairing_heap.add_node, hroot, pairing_heap.values, Node.new, Node.elems,
        pairing_heap.well_formed, Node.count, Node.no_sibling, hsize,
        pairing_heap.heap_ordered, ordered_under]
  | mk e c n =>
    rw [hroot] at hns
    have hm_ns := meld_no_sibling h.compare (.mk e c n) (Node.new val) hns (new_no_sibling val)
    have hm_el := meld_tree_elems h.compare (.mk e c n) (Node.new val)
    rw [← no_sibling_elems _ hm_ns, ← no_sibling_elems _ hns] at hm_el
    have hperm : (meld h.compare (.mk e c n) (Node.new val)).elems.Perm
        (val :: (Node.mk e c n).elems) := by
      refine hm_el.trans ?_
      simpa [Node.new, Node.tree_elems, Node.elems] using
        (List.perm_append_comm : ((Node.mk e c n).elems ++ [val]).Perm _)
    have hroot1 : (h.add_node val).1.root = meld h.compare (.mk e c n) (Node.new val) := by
      simp [pairing_heap.add_node, hroot]
    have hsize1 : (h.add_node val).1.sizeOf = h.sizeOf + 1 := by
      simp [pairing_heap.add_node, hroot]
    have hcmp1 : (h.add_node val).1.compare = h.compare := by
      simp [pairing_heap.add_node, hroot]
    refine ⟨hcmp1, hsize1, ?_, ?_, ?_, ?_⟩
    · simpa [pairing_heap.values, hroot1, hroot] using hperm
    · rw [well_formed_iff]
      refine ⟨?_, by rw [hroot1]; exact hm_ns⟩
      rw [hsize1, hsize]
      simp only [pairing_heap.values, hroot1, hroot]
      rw [hperm.length_eq]
      simp
    · rw [hroot1]
      exact meld_ne_null _ _ _ (by simp)
    · intro hasym hord
      simp only [pairing_heap.heap_ordered, hroot1, hcmp1]
      rw [no_sibling_ordered _ _ hm_ns]
      apply meld_tree_ordered hasym _ _ _ (new_tree_ordered _ _)
      rw [← no_sibling_ordered _ _ hns]
      simpa [pairing_heap.heap_ordered, hroot] using hord

/-- What `pop` does to a non-empty heap. -/
theorem pop_spec (h : pairing_heap α) (hwf : h.well_formed = true) (hne : h.sizeOf ≠ 0) :
    ∃ t h1, h.top = some t ∧ h.pop = some h1 ∧ h1.compare = h.compare ∧
      h1.sizeOf + 1 = h.sizeOf ∧ h.values.Perm (t :: h1.values) ∧ h1.well_formed = true ∧
      (∀ e n, h.root = Node.mk e Node.null n → h1.root = Node.null) ∧
      ((∀ a b, h.compare a b = true → h.compare b a = false) → h.heap_ordered = true →
        h1.heap_ordered = true) := by
  rw [well_formed_iff] at hwf
  obtain ⟨hsize, hns⟩ := hwf
  match hroot : h.root, hns with
  | .null, _ =>
    simp [pairing_heap.values, hroot, Node.elems] at hsize
    exact absurd hsize hne
  | .mk e .null .null, _ =>
    simp only [pairing_heap.values, hroot, Node.elems, List.append_nil, List.length_singleton]
      at hsize
    refine ⟨e, { h with sizeOf := h.sizeOf - 1, root := .null }, ?_, ?_, rfl, ?_, ?_, ?_, ?_, ?_⟩
    · simp [pairing_heap.top, hroot]
    · simp [pairing_heap.pop, hroot, hne]
    · simp [hsize]
    · simp [pairing_heap.values, hroot, Node.elems]
    · simp [pairing_heap.well_formed, hsize, Node.count, Node.no_sibling]
    · intro _ _ _; rfl
    · intro _ _; rfl
  | .mk e (.mk ce cc cn) .null, _ =>
    have hlen : (push_children cn [Node.mk ce cc cn]).length ≤
        (push_children cn [Node.mk ce cc cn]).length + 1 := Nat.le_succ _
    obtain ⟨out, hout, hperm, hnn, _, hord⟩ :=
      meld_queue_spec h.compare _ (push_children cn [Node.mk ce cc cn])
        (push_children_ne_nil cn _ (by simp)) hlen
    have hout_ne : out ≠ Node.null :=
      hnn (push_children_ne_null cn _ (by simp))
    have hperm2 : out.tree_elems.Perm (Node.mk ce cc cn).elems := by
      refine hperm.trans ((push_children_elems cn _).trans ?_)
      simp only [forest_elems, Node.tree_elems, Node.elems, List.append_nil]
      exact List.perm_append_comm.trans (by simp)
    match out, hout_ne with
    | .mk oe oc _, _ =>
      have hlenv : h.values.length = (oe :: oc.elems).length + 1 := by
        simp only [pairing_heap.values, hroot, Node.elems, List.append_nil, List.length_cons]
        have := hperm2.length_eq
        simp only [Node.tree_elems, Node.elems, List.length_cons] at this
        omega
      refine ⟨e, { h with sizeOf := h.sizeOf - 1, root := .mk oe oc .null }, ?_, ?_, rfl, ?_, ?_,
        ?_, ?_, ?_⟩
      · simp [pairing_heap.top, hroot]
      · simp [pairing_heap.pop, hroot, hne, hout]
      · simp only; omega
      · simp only [pairing_heap.values, hroot, Node.elems, List.append_nil]
        exact List.Perm.cons e hperm2.symm
      · rw [well_formed_iff]
        refine ⟨?_, rfl⟩
        simp only [pairing_heap.values, Node.elems, List.append_nil]
        simp only [List.length_cons] at hlenv ⊢
        omega
      · intro e1 n1 h1; simp at h1
      · intro hasym hordh
        simp only [pairing_heap.heap_ordered, hroot, ordered_under, Bool.true_and,
          Bool.and_true, Bool.and_eq_true] at hordh
        have hall : ∀ x ∈ push_children cn [Node.mk ce cc cn], tree_ordered h.compare x = true := by
          apply push_children_ordered (some e) cn _ hordh.2
          intro x hx
          simp only [List.mem_singleton] at hx
          subst hx
          exact hordh.1.2
        have := hord hasym hall
        simpa [pairing_heap.heap_ordered, ordered_under, tree_ordered] using this

/-- The rebuilding shared by `update_priorities`, the copy constructor and
`operator=`: `swapper` followed by the work-list loop yields one heap-ordered
tree over the same elements. -/
theorem rebuild_spec (compare : α → α → Bool) (e : α) (c n : Node α) :
    ∃ tot, meld_queue compare (swapper (Node.mk e c n) []).length (swapper (Node.mk e c n) [])
        = some tot ∧
      tot ≠ Node.null ∧ tot.no_sibling = true ∧ tot.elems.Perm (Node.mk e c n).elems ∧
      ((∀ a b, compare a b = true → compare b a = false) →
        ordered_under compare none tot = true) := by
  have hsing := swapper_singletons (Node.mk e c n) [] (by simp)
  obtain ⟨tot, htot, hperm, hnn, hns, hord⟩ :=
    meld_queue_spec compare _ (swapper (Node.mk e c n) []) (by simp [swapper]) (Nat.le_succ _)
  have hns1 : tot.no_sibling = true := by
    apply hns
    intro t ht
    obtain ⟨x, hx⟩ := hsing t ht
    rw [hx]; rfl
  refine ⟨tot, htot, ?_, hns1, ?_, ?_⟩
  · apply hnn
    intro t ht
    obtain ⟨x, hx⟩ := hsing t ht
    rw [hx]; simp [Node.new]
  · rw [no_sibling_elems _ hns1]
    refine hperm.trans ((swapper_elems _ []).trans ?_)
    simp [forest_elems]
  · intro hasym
    rw [no_sibling_ordered _ _ hns1]
    apply hord hasym
    intro t ht
    obtain ⟨x, hx⟩ := hsing t ht
    rw [hx]; rfl

/-- What `update_priorities` does, whatever the values in the tree. -/
theorem update_priorities_spec (h : pairing_heap α) (hwf : h.well_formed = true) :
    ∃ h1, h.update_priorities = some h1 ∧ h1.compare = h.compare ∧ h1.sizeOf = h.sizeOf ∧
      h1.values.Perm h.values ∧ h1.well_formed = true ∧
      ((∀ a b, h.compare a b = true → h.compare b a = false) → h1.heap_ordered = true) := by
  rw [well_formed_iff] at hwf
  obtain ⟨hsize, hns⟩ := hwf
  cases hroot : h.root with
  | null =>
    have h0 : h.sizeOf = 0 := by simpa [pairing_heap.values, hroot, Node.elems] using hsize
    refine ⟨h, by simp [pairing_heap.update_priorities, h0], rfl, rfl, List.Perm.refl _, ?_, ?_⟩
    · simp [pairing_heap.well_formed, hroot, h0, Node.count, Node.no_sibling]
    · intro _; simp [pairing_heap.heap_ordered, hroot, ordered_under]
  | mk e c n =>
    have hne : h.sizeOf ≠ 0 := by
      rw [hsize]; simp [pairing_heap.values, hroot, Node.elems]
    obtain ⟨tot, htot, _, hns1, hperm, hord⟩ := rebuild_spec h.compare e c n
    refine ⟨{ h with root := tot }, ?_, rfl, rfl, ?_, ?_, ?_⟩
    · simp [pairing_heap.update_priorities, hroot, hne, htot]
    · simpa [pairing_heap.values, hroot] using hperm
    · rw [well_formed_iff]
      refine ⟨?_, hns1⟩
      simp only [pairing_heap.values] at hsize ⊢
      rw [hsize, hroot, hperm.length_eq]
    · intro hasym
      exact hord hasym

/-! ## Handles -/

theorem parentOf_nil : parentOf ([] : Handle) = none := rfl

theorem parentOf_cons (l : Link) (r : Handle) :
    parentOf (l :: r) =
      match parentOf r with
      | some P => some (l :: P)
      | none => if l = Link.child then some [] else none := by
  unfold parentOf
  cases hp : parents r with
  | nil => cases l <;> simp [parents, hp]
  | cons P up => simp [parents, hp]

theorem parents_eq (q : Handle) :
    parents q = match parentOf q with
      | none => []
      | some P => P :: parents P := by
  induction q with
  | nil => rfl
  | cons l r ih =>
    rw [parentOf_cons]
    cases hp : parentOf r with
    | none =>
      rw [hp] at ih
      cases l <;> simp [parents, ih]
    | some P =>
      rw [hp] at ih
      simp only [parents, ih, List.map_cons, List.cons_append]

theorem parents_of_parent {q P : Handle} {up : List Handle} (h : parents q = P :: up) :
    parentOf q = some P ∧ parents P = up := by
  have h1 := parents_eq q
  rw [h] at h1
  cases hp : parentOf q with
  | none => rw [hp] at h1; simp at h1
  | some P1 =>
    rw [hp] at h1
    simp only [List.cons.injEq] at h1
    obtain ⟨e1, e2⟩ := h1
    subst e1
    exact ⟨rfl, e2.symm⟩

theorem parentOf_length {q P : Handle} (h : parentOf q = some P) : P.length < q.length := by
  induction q generalizing P with
  | nil => simp [parentOf_nil] at h
  | cons l r ih =>
    rw [parentOf_cons] at h
    cases hp : parentOf r with
    | none =>
      rw [hp] at h
      cases l <;> simp at h
      subst h; simp
    | some P1 =>
      rw [hp] at h
      simp only [Option.some.injEq] at h
      subst h
      simpa using ih hp

theorem parentOf_ne {q P : Handle} (h : parentOf q = some P) : P ≠ q := by
  intro e
  have := parentOf_length h
  rw [e] at this
  exact Nat.lt_irrefl _ this

theorem eltAt_parent {t : Node α} {q P : Handle} {b : α} (hq : eltAt t q = some b)
    (hp : parentOf q = some P) : ∃ a, eltAt t P = some a := by
  induction t generalizing q P with
  | null => simp [eltAt] at hq
  | mk e c n ihc ihn =>
    match q, hq, hp with
    | [], _, hp => simp [parentOf_nil] at hp
    | .child :: r, hq, hp =>
      rw [parentOf_cons] at hp
      simp only [eltAt] at hq
      cases hr : parentOf r with
      | none =>
        rw [hr] at hp
        simp only [if_true, Option.some.injEq] at hp
        subst hp
        exact ⟨e, rfl⟩
      | some P1 =>
        rw [hr] at hp
        simp only [Option.some.injEq] at hp
        subst hp
        simpa [eltAt] using ihc hq hr
    | .next :: r, hq, hp =>
      rw [parentOf_cons] at hp
      simp only [eltAt] at hq
      cases hr : parentOf r with
      | none => rw [hr] at hp; simp at hp
      | some P1 =>
        rw [hr] at hp
        simp only [Option.some.injEq] at hp
        subst hp
        simpa [eltAt] using ihn hq hr

theorem eltAt_setElt_same {t : Node α} {p : Handle} {y : α} (x : α) (h : eltAt t p = some y) :
    eltAt (setElt t p x) p = some x := by
  induction t generalizing p with
  | null => simp [eltAt] at h
  | mk e c n ihc ihn =>
    match p, h with
    | [], _ => rfl
    | .child :: r, h => simpa [eltAt, setElt] using ihc h
    | .next :: r, h => simpa [eltAt, setElt] using ihn h

theorem eltAt_setElt_ne (t : Node α) {p q : Handle} (x : α) (h : p ≠ q) :
    eltAt (setElt t p x) q = eltAt t q := by
  induction t generalizing p q with
  | null => rfl
  | mk e c n ihc ihn =>
    match p, q, h with
    | [], [], h => exact absurd rfl h
    | [], _ :: _, _ => cases ‹Link› <;> rfl
    | .child :: r, [], _ => rfl
    | .next :: r, [], _ => rfl
    | .child :: r, .child :: r1, h =>
      simp only [eltAt, setElt]
      exact ihc (fun e => h (by rw [e]))
    | .child :: r, .next :: r1, _ => rfl
    | .next :: r, .child :: r1, _ => rfl
    | .next :: r, .next :: r1, h =>
      simp only [eltAt, setElt]
      exact ihn (fun e => h (by rw [e]))

theorem setElt_no_sibling (t : Node α) (p : Handle) (x : α) :
    (setElt t p x).no_sibling = t.no_sibling := by
  match t, p with
  | .null, _ => rfl
  | .mk e c .null, [] => rfl
  | .mk e c (.mk _ _ _), [] => rfl
  | .mk e c .null, .child :: r => rfl
  | .mk e c (.mk _ _ _), .child :: r => rfl
  | .mk e c .null, .next :: r => rfl
  | .mk e c (.mk e1 c1 n1), .next :: r =>
    match r with
    | [] => rfl
    | .child :: _ => rfl
    | .next :: _ => rfl

theorem setElt_elems {t : Node α} {p : Handle} {y : α} (x : α) (h : eltAt t p = some y) :
    (y :: (setElt t p x).elems).Perm (x :: t.elems) := by
  induction t generalizing p with
  | null => simp [eltAt] at h
  | mk e c n ihc ihn =>
    match p, h with
    | [], h =>
      simp only [eltAt, Option.some.injEq] at h
      subst h
      simp only [setElt, Node.elems]
      exact List.Perm.swap _ _ _
    | .child :: r, h =>
      simp only [eltAt] at h
      simp only [setElt, Node.elems]
      have h1 := ihc h
      refine (List.Perm.swap _ _ _).trans ((List.Perm.cons e ?_).trans (List.Perm.swap _ _ _))
      have h2 : (y :: (setElt c r x).elems ++ n.elems).Perm (x :: c.elems ++ n.elems) :=
        List.Perm.append_right _ h1
      simpa using h2
    | .next :: r, h =>
      simp only [eltAt] at h
      simp only [setElt, Node.elems]
      have h1 := ihn h
      refine (List.Perm.swap _ _ _).trans ((List.Perm.cons e ?_).trans (List.Perm.swap _ _ _))
      have h2 : (c.elems ++ y :: (setElt n r x).elems).Perm (c.elems ++ x :: n.elems) :=
        List.Perm.append_left _ h1
      exact (List.perm_middle.symm.trans h2).trans List.perm_middle

theorem eltAt_mem {t : Node α} {q : Handle} {x : α} (h : eltAt t q = some x) : x ∈ t.elems := by
  induction t generalizing q with
  | null => simp [eltAt] at h
  | mk e c n ihc ihn =>
    match q, h with
    | [], h =>
      simp only [eltAt, Option.some.injEq] at h
      simp [Node.elems, h]
    | .child :: r, h => simp [Node.elems, ihc h]
    | .next :: r, h => simp [Node.elems, ihn h]

theorem eltAt_split {t : Node α} {q : Handle} {x : α} (h : eltAt t q = some x) :
    ∃ l, t.elems.Perm (x :: l) := by
  obtain ⟨l1, l2, e⟩ := List.append_of_mem (eltAt_mem h)
  exact ⟨l1 ++ l2, by rw [e]; exact List.perm_middle⟩

/-- Two different nodes hold two different occurrences of the heap's elements. -/
theorem eltAt_two {t : Node α} {p q : Handle} {y x : α} (hp : eltAt t p = some y)
    (hq : eltAt t q = some x) (hne : p ≠ q) : ∃ l, t.elems.Perm (y :: x :: l) := by
  induction t generalizing p q with
  | null => simp [eltAt] at hp
  | mk e c n ihc ihn =>
    match p, q, hp, hq, hne with
    | [], [], _, _, hne => exact absurd rfl hne
    | [], .child :: r, hp, hq, _ =>
      simp only [eltAt, Option.some.injEq] at hp hq
      subst hp
      obtain ⟨l, hl⟩ := eltAt_split hq
      refine ⟨l ++ n.elems, ?_⟩
      have h1 := Multiset.coe_eq_coe.2 hl
      apply Multiset.coe_eq_coe.1
      simp only [Node.elems, ← Multiset.cons_coe, ← Multiset.coe_add,
        ← Multiset.singleton_add] at h1 ⊢
      rw [h1]; abel
    | [], .next :: r, hp, hq, _ =>
      simp only [eltAt, Option.some.injEq] at hp hq
      subst hp
      obtain ⟨l, hl⟩ := eltAt_split hq
      refine ⟨c.elems ++ l, ?_⟩
      have h1 := Multiset.coe_eq_coe.2 hl
      apply Multiset.coe_eq_coe.1
      simp only [Node.elems, ← Multiset.cons_coe, ← Multiset.coe_add,
        ← Multiset.singleton_add] at h1 ⊢
      rw [h1]; abel
    | .child :: r, [], hp, hq, _ =>
      simp only [eltAt, Option.some.injEq] at hp hq
      subst hq
      obtain ⟨l, hl⟩ := eltAt_split hp
      refine ⟨l ++ n.elems, ?_⟩
      have h1 := Multiset.coe_eq_coe.2 hl
      apply Multiset.coe_eq_coe.1
      simp only [Node.elems, ← Multiset.cons_coe, ← Multiset.coe_add,
        ← Multiset.singleton_add] at h1 ⊢
      rw [h1]; abel
    | .next :: r, [], hp, hq, _ =>
      simp only [eltAt, Option.some.injEq] at hp hq
      subst hq
      obtain ⟨l, hl⟩ := eltAt_split hp
      refine ⟨c.elems ++ l, ?_⟩
      have h1 := Multiset.coe_eq_coe.2 hl
      apply Multiset.coe_eq_coe.1
      simp only [Node.elems, ← Multiset.cons_coe, ← Multiset.coe_add,
        ← Multiset.singleton_add] at h1 ⊢
      rw [h1]; abel
    | .child :: r, .child :: r1, hp, hq, hne =>
      simp only [eltAt] at hp hq
      obtain ⟨l, hl⟩ := ihc hp hq (fun e => hne (by rw [e]))
      refine ⟨e :: (l ++ n.elems), ?_⟩
      have h1 := Multiset.coe_eq_coe.2 hl
      apply Multiset.coe_eq_coe.1
      simp only [Node.elems, ← Multiset.cons_coe, ← Multiset.coe_add,
        ← Multiset.singleton_add] at h1 ⊢
      rw [h1]; abel
    | .next :: r, .next :: r1, hp, hq, hne =>
      simp only [eltAt] at hp hq
      obtain ⟨l, hl⟩ := ihn hp hq (fun e => hne (by rw [e]))
      refine ⟨e :: (c.elems ++ l), ?_⟩
      have h1 := Multiset.coe_eq_coe.2 hl
      apply Multiset.coe_eq_coe.1
      simp only [Node.elems, ← Multiset.cons_coe, ← Multiset.coe_add,
        ← Multiset.singleton_add] at h1 ⊢
      rw [h1]; abel
    | .child :: r, .next :: r1, hp, hq, _ =>
      simp only [eltAt] at hp hq
      obtain ⟨l1, hl1⟩ := eltAt_split hp
      obtain ⟨l2, hl2⟩ := eltAt_split hq
      refine ⟨e :: (l1 ++ l2), ?_⟩
      have h1 := Multiset.coe_eq_coe.2 hl1
      have h2 := Multiset.coe_eq_coe.2 hl2
      apply Multiset.coe_eq_coe.1
      simp only [Node.elems, ← Multiset.cons_coe, ← Multiset.coe_add,
        ← Multiset.singleton_add] at h1 h2 ⊢
      rw [h1, h2]; abel
    | .next :: r, .child :: r1, hp, hq, _ =>
      simp only [eltAt] at hp hq
      obtain ⟨l1, hl1⟩ := eltAt_split hp
      obtain ⟨l2, hl2⟩ := eltAt_split hq
      refine ⟨e :: (l1 ++ l2), ?_⟩
      have h1 := Multiset.coe_eq_coe.2 hl1
      have h2 := Multiset.coe_eq_coe.2 hl2
      apply Multiset.coe_eq_coe.1
      simp only [Node.elems, ← Multiset.cons_coe, ← Multiset.coe_add,
        ← Multiset.singleton_add] at h1 h2 ⊢
      rw [h1, h2]; abel

/-- In a tree whose root has no sibling, the only node without a parent is the
root. -/
theorem root_of_no_parent {t : Node α} {q : Handle} {x : α} (hns : t.no_sibling = true)
    (hq : eltAt t q = some x) (hp : parentOf q = none) : q = [] := by
  match q, hq, hp with
  | [], _, _ => rfl
  | .child :: r, _, hp =>
    rw [parentOf_cons] at hp
    cases hr : parentOf r <;> rw [hr] at hp <;> simp at hp
  | .next :: r, hq, _ =>
    match t, hns, hq with
    | .mk e c .null, _, hq => simp [eltAt] at hq

/-- The recursive check `ordered_under` says that every node with a parent is
not preferred to it by the comparator, the nodes of the top chain having the
parent value `pv`. -/
theorem ordered_under_iff (compare : α → α → Bool) (pv : Option α) (t : Node α) :
    ordered_under compare pv t = true ↔
      ∀ (q : Handle) (b : α), eltAt t q = some b → ∀ a,
        (match parentOf q with
          | some P => eltAt t P
          | none => pv) = some a → compare a b = false := by
  induction t generalizing pv with
  | null => simp [ordered_under, eltAt]
  | mk e c n ihc ihn =>
    simp only [ordered_under, Bool.and_eq_true]
    rw [ihc, ihn]
    constructor
    · rintro ⟨⟨h1, h2⟩, h3⟩ q b hq a ha
      match q, hq, ha with
      | [], hq, ha =>
        simp only [eltAt, Option.some.injEq] at hq
        simp only [parentOf_nil] at ha
        subst hq; subst ha
        simpa using h1
      | .child :: r, hq, ha =>
        simp only [eltAt] at hq
        rw [parentOf_cons] at ha
        apply h2 r b hq a
        cases hr : parentOf r with
        | none => rw [hr] at ha; simpa [eltAt] using ha
        | some P => rw [hr] at ha; simpa [eltAt] using ha
      | .next :: r, hq, ha =>
        simp only [eltAt] at hq
        rw [parentOf_cons] at ha
        apply h3 r b hq a
        cases hr : parentOf r with
        | none => rw [hr] at ha; simpa [eltAt] using ha
        | some P => rw [hr] at ha; simpa [eltAt] using ha
    · intro hall
      refine ⟨⟨?_, ?_⟩, ?_⟩
      · cases pv with
        | none => rfl
        | some p => simpa using hall [] e rfl p (by simp [parentOf_nil])
      · intro r b hq a ha
        apply hall (.child :: r) b (by simpa [eltAt] using hq) a
        rw [parentOf_cons]
        cases hr : parentOf r with
        | none => rw [hr] at ha; simpa [eltAt] using ha
        | some P => rw [hr] at ha; simpa [eltAt] using ha
      · intro r b hq a ha
        apply hall (.next :: r) b (by simpa [eltAt] using hq) a
        rw [parentOf_cons]
        cases hr : parentOf r with
        | none => rw [hr] at ha; simpa [eltAt] using ha
        | some P => rw [hr] at ha; simpa [eltAt] using ha

/-- The recursive check and the node-by-node predicate agree. -/
theorem heap_ordered_iff (h : pairing_heap α) : h.heap_ordered = true ↔ h.heap_order := by
  unfold pairing_heap.heap_ordered pairing_heap.heap_order
  rw [ordered_under_iff]
  constructor
  · intro hall node Parent a b hp ha hb
    apply hall node b hb a
    rw [hp]; exact ha
  · intro hall q b hq a ha
    cases hp : parentOf q with
    | none => rw [hp] at ha; simp at ha
    | some P => rw [hp] at ha; exact hall q P a b hp ha hq

/-! ## `updateElt` -/

theorem swap_elems {root : Node α} {P C : Handle} {p c : α} (hP : eltAt root P = some p)
    (hC : eltAt root C = some c) : (setElt (setElt root P c) C p).elems.Perm root.elems := by
  have h1 := setElt_elems c hP
  have hC2 : eltAt (setElt root P c) C = some c := by
    by_cases e : P = C
    · subst e; exact eltAt_setElt_same c hP
    · rw [eltAt_setElt_ne _ _ e]; exact hC
  have h2 := setElt_elems p hC2
  exact (h2.trans h1).cons_inv

theorem swap_eltAt {root : Node α} {P C : Handle} {p c : α} (hP : eltAt root P = some p)
    (hC : eltAt root C = some c) (hne : P ≠ C) (x : Handle) :
    eltAt (setElt (setElt root P c) C p) x =
      if x = C then some p else if x = P then some c else eltAt root x := by
  have hC2 : eltAt (setElt root P c) C = some c := by
    rw [eltAt_setElt_ne _ _ hne]; exact hC
  by_cases h1 : x = C
  · subst h1
    simp only [if_true]
    exact eltAt_setElt_same p hC2
  · rw [if_neg h1, eltAt_setElt_ne _ _ (fun e => h1 e.symm)]
    by_cases h2 : x = P
    · subst h2
      simp only [if_true]
      exact eltAt_setElt_same c hP
    · rw [if_neg h2, eltAt_setElt_ne _ _ (fun e => h2 e.symm)]

theorem bubble_up_elems (compare : α → α → Bool) (ups : List Handle) :
    ∀ (root : Node α) (cNode : Handle),
      (bubble_up compare root ups cNode).elems.Perm root.elems := by
  induction ups with
  | nil => intro root cNode; exact List.Perm.refl _
  | cons Parent up ih =>
    intro root cNode
    simp only [bubble_up]
    cases hP : eltAt root Parent with
    | none => exact List.Perm.refl _
    | some p =>
      cases hC : eltAt root cNode with
      | none => exact List.Perm.refl _
      | some c =>
        simp only
        split
        · exact (ih _ _).trans (swap_elems hP hC)
        · exact List.Perm.refl _

theorem bubble_up_no_sibling (compare : α → α → Bool) (ups : List Handle) :
    ∀ (root : Node α) (cNode : Handle),
      (bubble_up compare root ups cNode).no_sibling = root.no_sibling := by
  induction ups with
  | nil => intro root cNode; rfl
  | cons Parent up ih =>
    intro root cNode
    simp only [bubble_up]
    cases hP : eltAt root Parent with
    | none => rfl
    | some p =>
      cases hC : eltAt root cNode with
      | none => rfl
      | some c =>
        simp only
        split
        · rw [ih, setElt_no_sibling, setElt_no_sibling]
        · rfl

/-- The loop of `updateElt` restores heap order when the only edge that may be
out of order is the one above `cNode` and the children of `cNode` respect the
value of its parent. -/
theorem bubble_up_order {compare : α → α → Bool} (hc : StrictWeakOrder compare)
    (ups : List Handle) :
    ∀ (root : Node α) (cNode : Handle) (c : α), parents cNode = ups →
      eltAt root cNode = some c →
      (∀ q P a b, q ≠ cNode → parentOf q = some P → eltAt root P = some a →
        eltAt root q = some b → compare a b = false) →
      (∀ q P a b, parentOf q = some cNode → parentOf cNode = some P → eltAt root P = some a →
        eltAt root q = some b → compare a b = false) →
      ∀ q P a b, parentOf q = some P → eltAt (bubble_up compare root ups cNode) P = some a →
        eltAt (bubble_up compare root ups cNode) q = some b → compare a b = false := by
  induction ups with
  | nil =>
    intro root cNode c hups hC hrest hgrand q P a b hq ha hb
    simp only [bubble_up] at ha hb
    by_cases e : q = cNode
    · subst e
      have := parents_eq q
      rw [hups, hq] at this
      simp at this
    · exact hrest q P a b e hq ha hb
  | cons Parent up ih =>
    intro root cNode c hups hC hrest hgrand
    obtain ⟨hpar, hup⟩ := parents_of_parent hups
    obtain ⟨p, hP⟩ := eltAt_parent hC hpar
    have hne : Parent ≠ cNode := parentOf_ne hpar
    simp only [bubble_up, hP, hC]
    by_cases hcmp : compare p c = true
    · simp only [hcmp, if_true]
      have hval := swap_eltAt hP hC hne
      apply ih _ Parent c hup
      · rw [hval]; simp [hne]
      · -- every edge except the one above `Parent`
        intro q P1 a b hqne hq ha hb
        rw [hval] at ha hb
        by_cases hq1 : q = cNode
        · subst hq1
          rw [hpar] at hq
          simp only [Option.some.injEq] at hq
          subst hq
          simp only [if_true, hne, if_false, Option.some.injEq] at ha hb
          subst ha; subst hb
          exact hc.asymm hcmp
        · simp only [hq1, hqne, if_false] at hb
          by_cases hP1 : P1 = cNode
          · subst hP1
            simp only [if_true, Option.some.injEq] at ha
            subst ha
            exact hgrand q Parent _ b hq hpar hP hb
          · simp only [hP1, if_false] at ha
            by_cases hP2 : P1 = Parent
            · subst hP2
              simp only [if_true, Option.some.injEq] at ha
              subst ha
              have h1 := hrest q P1 p b hq1 hq hP hb
              cases hcb : compare c b with
              | false => rfl
              | true => rw [hc.trans p c b hcmp hcb] at h1; exact absurd h1 (by decide)
            · simp only [hP2, if_false] at ha
              exact hrest q P1 a b hq1 hq ha hb
      · -- the children of `Parent` against the value above `Parent`
        intro q G g b hq hG hg hb
        rw [hval] at hg hb
        have hG1 : G ≠ Parent := parentOf_ne hG
        have hG2 : G ≠ cNode := by
          intro e
          have l1 := parentOf_length hG
          have l2 := parentOf_length hpar
          rw [e] at l1
          omega
        simp only [hG1, hG2, if_false] at hg
        have hgp : compare g p = false := hrest Parent G g p hne hG hg hP
        by_cases hq1 : q = cNode
        · subst hq1
          simp only [if_true, Option.some.injEq] at hb
          subst hb
          exact hgp
        · have hq2 : q ≠ Parent := (parentOf_ne hq).symm
          simp only [hq1, hq2, if_false] at hb
          exact hc.neg_trans hgp (hrest q Parent p b hq1 hq hP hb)
    · simp only [Bool.not_eq_true] at hcmp
      simp only [hcmp, Bool.false_eq_true, if_false]
      intro q P1 a b hq ha hb
      by_cases e : q = cNode
      · subst e
        rw [hpar] at hq
        simp only [Option.some.injEq] at hq
        subst hq
        rw [hP] at ha; rw [hC] at hb
        simp only [Option.some.injEq] at ha hb
        subst ha; subst hb
        simpa using hcmp
      · exact hrest q P1 a b e hq ha hb

/-- A value the comparator puts after every other value of the tree travels all
the way up. -/
theorem bubble_up_top (compare : α → α → Bool) (ups : List Handle) :
    ∀ (root : Node α) (cNode : Handle) (v : α), parents cNode = ups →
      eltAt root cNode = some v →
      (∀ q x, q ≠ cNode → eltAt root q = some x → compare x v = true) →
      ∃ r, parentOf r = none ∧ eltAt (bubble_up compare root ups cNode) r = some v := by
  induction ups with
  | nil =>
    intro root cNode v hups hC _
    refine ⟨cNode, ?_, hC⟩
    unfold parentOf
    rw [hups]; rfl
  | cons Parent up ih =>
    intro root cNode v hups hC hall
    obtain ⟨hpar, hup⟩ := parents_of_parent hups
    obtain ⟨p, hP⟩ := eltAt_parent hC hpar
    have hne : Parent ≠ cNode := parentOf_ne hpar
    have hcmp : compare p v = true := hall Parent p hne hP
    simp only [bubble_up, hP, hC, hcmp, if_true]
    have hval := swap_eltAt hP hC hne
    apply ih _ Parent v hup
    · rw [hval]; simp [hne]
    · intro q x hq hx
      rw [hval] at hx
      by_cases hq1 : q = cNode
      · subst hq1
        simp only [if_true, Option.some.injEq] at hx
        subst hx
        exact hcmp
      · simp only [hq1, hq, if_false] at hx
        exact hall q x hq1 hx

theorem top_eq_eltAt (h : pairing_heap α) : h.top = eltAt h.root [] := by
  unfold pairing_heap.top
  cases h.root <;> rfl

/-- The shape of the result of `updateElt` on a live node. -/
theorem updateElt_root (h : pairing_heap α) (node : Handle) (v : α) :
    ∃ R, h.updateElt (some node) v = { h with root := R } ∧
      R.elems.Perm (setElt h.root node v).elems ∧ R.no_sibling = h.root.no_sibling := by
  simp only [pairing_heap.updateElt]
  cases hups : parents node with
  | nil => exact ⟨_, rfl, List.Perm.refl _, setElt_no_sibling _ _ _⟩
  | cons Parent up =>
    simp only
    cases hP : eltAt (setElt h.root node v) Parent with
    | none => exact ⟨_, rfl, List.Perm.refl _, setElt_no_sibling _ _ _⟩
    | some p =>
      simp only
      split
      · exact ⟨_, rfl, List.Perm.refl _, setElt_no_sibling _ _ _⟩
      · exact ⟨_, rfl, bubble_up_elems _ _ _ _, by
          rw [bubble_up_no_sibling, setElt_no_sibling]⟩

/-- What `updateElt` does through a handle to a live node holding `o`. -/
theorem updateElt_spec (h : pairing_heap α) (node : Handle) (v o : α)
    (hwf : h.well_formed = true) (hnode : eltAt h.root node = some o) :
    (h.updateElt (some node) v).compare = h.compare ∧
    (h.updateElt (some node) v).sizeOf = h.sizeOf ∧
    (o :: (h.updateElt (some node) v).values).Perm (v :: h.values) ∧
    (h.updateElt (some node) v).well_formed = true := by
  obtain ⟨R, hR, hperm, hns⟩ := updateElt_root h node v
  rw [well_formed_iff] at hwf
  have hp2 : (o :: R.elems).Perm (v :: h.root.elems) :=
    (List.Perm.cons o hperm).trans (setElt_elems v hnode)
  rw [hR]
  refine ⟨rfl, rfl, hp2, ?_⟩
  rw [well_formed_iff]
  refine ⟨?_, by rw [← hwf.2]; exact hns⟩
  have := hp2.length_eq
  simp only [List.length_cons, pairing_heap.values] at this ⊢
  rw [hwf.1]
  simp only [pairing_heap.values]
  omega

/-- Member `updateElt` keeps heap order when the new value is not put before the old
one by the comparator. -/
theorem updateElt_ordered (h : pairing_heap α) (node : Handle) (v o : α)
    (hc : StrictWeakOrder h.compare) (hnode : eltAt h.root node = some o)
    (hpre : h.compare v o = false) (hord : h.heap_ordered = true) :
    (h.updateElt (some node) v).heap_ordered = true := by
  rw [heap_ordered_iff] at hord ⊢
  have hv : eltAt (setElt h.root node v) node = some v := eltAt_setElt_same v hnode
  have hother : ∀ q, q ≠ node → eltAt (setElt h.root node v) q = eltAt h.root q :=
    fun q hq => eltAt_setElt_ne _ _ (fun e => hq e.symm)
  have hrest : ∀ q P a b, q ≠ node → parentOf q = some P →
      eltAt (setElt h.root node v) P = some a → eltAt (setElt h.root node v) q = some b →
      h.compare a b = false := by
    intro q P a b hq hpq ha hb
    rw [hother q hq] at hb
    by_cases hP : P = node
    · subst hP
      rw [hv] at ha
      simp only [Option.some.injEq] at ha
      subst ha
      exact hc.neg_trans hpre (hord q P o b hpq hnode hb)
    · rw [hother P hP] at ha
      exact hord q P a b hpq ha hb
  have hgrand : ∀ q P a b, parentOf q = some node → parentOf node = some P →
      eltAt (setElt h.root node v) P = some a → eltAt (setElt h.root node v) q = some b →
      h.compare a b = false := by
    intro q P a b hq hpn ha hb
    rw [hother P (parentOf_ne hpn)] at ha
    rw [hother q (parentOf_ne hq).symm] at hb
    exact hc.neg_trans (hord node P a o hpn ha hnode) (hord q node o b hq hnode hb)
  unfold pairing_heap.heap_order
  simp only [pairing_heap.updateElt]
  cases hups : parents node with
  | nil =>
    intro q P a b hpq ha hb
    by_cases e : q = node
    · subst e
      have := parents_eq q
      rw [hups, hpq] at this
      simp at this
    · exact hrest q P a b e hpq ha hb
  | cons Parent up =>
    obtain ⟨hpar, _⟩ := parents_of_parent hups
    obtain ⟨p, hP⟩ := eltAt_parent hv hpar
    simp only [hP]
    cases hcmp : h.compare v p with
    | true =>
      simp only [if_true]
      intro q P a b hpq ha hb
      by_cases e : q = node
      · subst e
        rw [hpar] at hpq
        simp only [Option.some.injEq] at hpq
        subst hpq
        rw [hP] at ha; rw [hv] at hb
        simp only [Option.some.injEq] at ha hb
        subst ha; subst hb
        exact hc.asymm hcmp
      · exact hrest q P a b e hpq ha hb
    | false =>
      simp only [Bool.false_eq_true, if_false]
      exact bubble_up_order hc _ _ node v hups hv hrest hgrand

/-- When every other node holds a value the comparator puts before the new
value, the new value ends at the root. -/
theorem updateElt_top (h : pairing_heap α) (node : Handle) (v o : α)
    (hasym : ∀ a b, h.compare a b = true → h.compare b a = false)
    (hns : h.root.no_sibling = true) (hnode : eltAt h.root node = some o)
    (hall : ∀ q x, q ≠ node → eltAt h.root q = some x → h.compare x v = true) :
    (h.updateElt (some node) v).top = some v := by
  have hv : eltAt (setElt h.root node v) node = some v := eltAt_setElt_same v hnode
  have hother : ∀ q, q ≠ node → eltAt (setElt h.root node v) q = eltAt h.root q :=
    fun q hq => eltAt_setElt_ne _ _ (fun e => hq e.symm)
  rw [top_eq_eltAt]
  simp only [pairing_heap.updateElt]
  cases hups : parents node with
  | nil =>
    have hpn : parentOf node = none := by unfold parentOf; rw [hups]; rfl
    have := root_of_no_parent hns hnode hpn
    subst this
    exact hv
  | cons Parent up =>
    obtain ⟨hpar, _⟩ := parents_of_parent hups
    obtain ⟨p, hP⟩ := eltAt_parent hv hpar
    have hP0 : eltAt h.root Parent = some p := by
      rw [← hother Parent (parentOf_ne hpar)]; exact hP
    have hcmp : h.compare p v = true := hall Parent p (parentOf_ne hpar) hP0
    simp only [hP, hasym p v hcmp, Bool.false_eq_true, if_false]
    obtain ⟨r, hr, hrv⟩ := bubble_up_top h.compare (Parent :: up) (setElt h.root node v) node v
      hups hv (by
        intro q x hq hx
        rw [hother q hq] at hx
        exact hall q x hq hx)
    have hns2 : (bubble_up h.compare (setElt h.root node v) (Parent :: up) node).no_sibling
        = true := by
      rw [bubble_up_no_sibling, setElt_no_sibling]; exact hns
    have := root_of_no_parent hns2 hrv hr
    subst this
    exact hrv

/-! ## Sequences of calls -/

theorem pop_of_empty (h : pairing_heap α) (h0 : h.sizeOf = 0) : h.pop = some h := by
  simp [pairing_heap.pop, h0]

/-- One call made with its precondition keeps the class invariant and, for a
strict weak ordering, heap order; it always has a result. -/
theorem step_spec (h : pairing_heap α) (op : Op α) (hwf : h.well_formed = true)
    (hpre : precondition h op = true) :
    ∃ h1, step h op = some h1 ∧ h1.compare = h.compare ∧ h1.well_formed = true ∧
      (StrictWeakOrder h.compare → h.heap_ordered = true → h1.heap_ordered = true) := by
  cases op with
  | push val =>
    obtain ⟨h1, _, _, h4, _, h6⟩ := add_node_spec h val hwf
    exact ⟨_, rfl, h1, h4, fun hc ho => h6 (fun a b => hc.asymm) ho⟩
  | pop =>
    by_cases h0 : h.sizeOf = 0
    · exact ⟨h, pop_of_empty h h0, rfl, hwf, fun _ ho => ho⟩
    · obtain ⟨t, h1, _, hpop, hcmp, _, _, hwf1, _, hord⟩ := pop_spec h hwf h0
      exact ⟨h1, hpop, hcmp, hwf1, fun hc ho => hord (fun a b => hc.asymm) ho⟩
  | update_priorities =>
    obtain ⟨h1, hup, hcmp, _, _, hwf1, hord⟩ := update_priorities_spec h hwf
    exact ⟨h1, hup, hcmp, hwf1, fun hc _ => hord (fun a b => hc.asymm)⟩
  | updateElt node new_value =>
    cases node with
    | none => exact ⟨h, rfl, rfl, hwf, fun _ ho => ho⟩
    | some node =>
      simp only [precondition] at hpre
      cases hnode : eltAt h.root node with
      | none => rw [hnode] at hpre; simp at hpre
      | some o =>
        rw [hnode] at hpre
        simp only [Bool.not_eq_true'] at hpre
        obtain ⟨h1, _, _, h4⟩ := updateElt_spec h node new_value o hwf hnode
        exact ⟨_, rfl, h1, h4, fun hc ho => updateElt_ordered h node new_value o hc hnode hpre ho⟩

/-- Any sequence of calls made with their preconditions runs to the end and
keeps the invariants. -/
theorem run_spec (compare : α → α → Bool) (hc : StrictWeakOrder compare) (ops : List (Op α)) :
    ∀ h : pairing_heap α, h.compare = compare → h.well_formed = true → h.heap_ordered = true →
      preconditions_hold h ops = true →
      ∃ h1, run h ops = some h1 ∧ h1.compare = compare ∧ h1.well_formed = true ∧
        h1.heap_ordered = true := by
  induction ops with
  | nil => intro h hcmp hwf hord _; exact ⟨h, rfl, hcmp, hwf, hord⟩
  | cons op ops ih =>
    intro h hcmp hwf hord hpre
    simp only [preconditions_hold, Bool.and_eq_true] at hpre
    obtain ⟨h1, hstep, hcmp1, hwf1, hord1⟩ := step_spec h op hwf hpre.1
    have hpre2 := hpre.2
    rw [hstep] at hpre2
    obtain ⟨h2, hrun, r2, r3, r4⟩ :=
      ih h1 (hcmp1.trans hcmp) hwf1 (hord1 (by rw [hcmp]; exact hc) hord) hpre2
    exact ⟨h2, by simp [run, hstep, hrun], r2, r3, r4⟩

theorem push_pop_preconditions (ops : List (Op α))
    (hops : ops.all (fun op => op.is_push_or_pop) = true) :
    ∀ h : pairing_heap α, preconditions_hold h ops = true := by
  induction ops with
  | nil => intro h; rfl
  | cons op ops ih =>
    intro h
    simp only [List.all_cons, Bool.and_eq_true] at hops
    have h1 : precondition h op = true := by
      cases op with
      | push val => rfl
      | pop => rfl
      | update_priorities => rfl
      | updateElt node v => simp [Op.is_push_or_pop] at hops
    simp only [preconditions_hold, h1, Bool.true_and]
    cases step h op with
    | none => rfl
    | some h1 => exact ih hops.2 h1

/-- The range constructor builds a heap with the invariants, holding the
elements of the range. -/
theorem from_range_spec (comp : α → α → Bool) (range : List α) :
    (pairing_heap.from_range range comp).compare = comp ∧
    (pairing_heap.from_range range comp).well_formed = true ∧
    (pairing_heap.from_range range comp).values.Perm range ∧
    ((∀ a b, comp a b = true → comp b a = false) →
      (pairing_heap.from_range range comp).heap_ordered = true) := by
  have key : ∀ (l : List α) (h : pairing_heap α), h.compare = comp → h.well_formed = true →
      (l.foldl (fun h x => (h.add_node x).1) h).compare = comp ∧
      (l.foldl (fun h x => (h.add_node x).1) h).well_formed = true ∧
      (l.foldl (fun h x => (h.add_node x).1) h).values.Perm (h.values ++ l) ∧
      ((∀ a b, comp a b = true → comp b a = false) → h.heap_ordered = true →
        (l.foldl (fun h x => (h.add_node x).1) h).heap_ordered = true) := by
    intro l
    induction l with
    | nil => intro h hcmp hwf; exact ⟨hcmp, hwf, by simp, fun _ ho => ho⟩
    | cons x l ih =>
      intro h hcmp hwf
      obtain ⟨a1, _, a3, a4, _, a6⟩ := add_node_spec h x hwf
      obtain ⟨b1, b2, b3, b4⟩ := ih (h.add_node x).1 (a1.trans hcmp) a4
      refine ⟨b1, b2, ?_, ?_⟩
      · refine b3.trans ?_
        refine (List.Perm.append_right l a3).trans ?_
        simpa using (@List.perm_middle α x h.values l).symm
      · intro hasym ho
        exact b4 hasym (a6 (by rw [hcmp]; exact hasym) ho)
  obtain ⟨k1, k2, k3, k4⟩ := key range (pairing_heap.empty_heap comp) rfl
    (empty_heap_well_formed comp)
  exact ⟨k1, k2, by simpa [pairing_heap.values, pairing_heap.empty_heap, Node.elems] using k3,
    fun hasym => k4 hasym (empty_heap_ordered comp)⟩

theorem foldl_push_eq (comp : α → α → Bool) (xs : List α) :
    xs.foldl pairing_heap.push (pairing_heap.empty_heap comp) =
      pairing_heap.from_range xs comp := rfl

/-- In a heap with the invariants the root holds an element that the
comparator puts before no element of the heap. -/
theorem top_spec (h : pairing_heap α) (hc : StrictWeakOrder h.compare)
    (hwf : h.well_formed = true) (hord : h.heap_ordered = true) (hne : h.sizeOf ≠ 0) :
    ∃ e, h.top = some e ∧ e ∈ h.values ∧ ∀ x ∈ h.values, h.compare e x = false := by
  rw [well_formed_iff] at hwf
  obtain ⟨hsize, hns⟩ := hwf
  match hroot : h.root, hns with
  | .null, _ =>
    simp [pairing_heap.values, hroot, Node.elems] at hsize
    exact absurd hsize hne
  | .mk e c .null, _ =>
    refine ⟨e, by simp [pairing_heap.top, hroot], by simp [pairing_heap.values, hroot, Node.elems],
      ?_⟩
    simp only [pairing_heap.heap_ordered, hroot, ordered_under, Bool.true_and, Bool.and_true]
      at hord
    intro x hx
    simp only [pairing_heap.values, hroot, Node.elems, List.append_nil, List.mem_cons] at hx
    rcases hx with hx | hx
    · subst hx; exact hc.irrefl x
    · exact ordered_under_bound hc e c hord x hx

/-- The client loop runs to the end and reads the elements of the heap, each
one before only elements the comparator does not put after it. -/
theorem drain_spec (compare : α → α → Bool) (hc : StrictWeakOrder compare) (fuel : Nat) :
    ∀ h : pairing_heap α, h.compare = compare → h.well_formed = true → h.heap_ordered = true →
      h.sizeOf ≤ fuel →
      ∃ out hf, drain fuel h = some (out, hf) ∧ out.Perm h.values ∧
        out.Pairwise (fun a b => compare a b = false) ∧ hf.empty = true ∧
        hf.root = Node.null := by
  induction fuel with
  | zero =>
    intro h _ hwf _ hle
    have h0 : h.sizeOf = 0 := Nat.le_zero.1 hle
    rw [well_formed_iff] at hwf
    have hv : h.values = [] := List.length_eq_zero.1 (by rw [← hwf.1]; exact h0)
    refine ⟨[], h, ?_, by rw [hv], List.Pairwise.nil, by simp [pairing_heap.empty, h0], ?_⟩
    · unfold drain; simp [pairing_heap.empty, h0]
    · cases hr : h.root with
      | null => rfl
      | mk e c n => simp [pairing_heap.values, hr, Node.elems] at hv
  | succ fuel ih =>
    intro h hcmp hwf hord hle
    by_cases h0 : h.sizeOf = 0
    · have hwf2 := hwf
      rw [well_formed_iff] at hwf2
      have hv : h.values = [] := List.length_eq_zero.1 (by rw [← hwf2.1]; exact h0)
      refine ⟨[], h, ?_, by rw [hv], List.Pairwise.nil, by simp [pairing_heap.empty, h0], ?_⟩
      · unfold drain; simp [pairing_heap.empty, h0]
      · cases hr : h.root with
        | null => rfl
        | mk e c n => simp [pairing_heap.values, hr, Node.elems] at hv
    · obtain ⟨t, h1, htop, hpop, hcmp1, hsz, hperm, hwf1, _, hord1⟩ := pop_spec h hwf h0
      obtain ⟨e, htop2, _, hmax⟩ := top_spec h (by rw [hcmp]; exact hc) hwf hord h0
      rw [htop] at htop2
      simp only [Option.some.injEq] at htop2
      subst htop2
      obtain ⟨out, hf, hdr, hp1, hpw, hfe, hfr⟩ :=
        ih h1 (hcmp1.trans hcmp) hwf1 (hord1 (fun a b => by rw [hcmp]; exact hc.asymm) hord)
          (by omega)
      refine ⟨t :: out, hf, ?_, ?_, ?_, hfe, hfr⟩
      · unfold drain
        simp [pairing_heap.empty, h0, htop, hpop, hdr]
      · exact (List.Perm.cons t hp1).trans hperm.symm
      · refine List.Pairwise.cons ?_ hpw
        intro x hx
        rw [← hcmp]
        apply hmax x
        exact hperm.symm.subset (List.mem_cons_of_mem _ (hp1.subset hx))

/-! ## Copies -/

/-- Copy construction from a non-empty heap: the copy has a result, the size
and the elements of the source, and is heap ordered. -/
theorem copy_spec (uninit_root : Node α) (s : pairing_heap α) (hwf : s.well_formed = true)
    (hne : s.sizeOf ≠ 0) :
    ∃ c, pairing_heap.copy uninit_root s = some c ∧ c.compare = s.compare ∧
      c.sizeOf = s.sizeOf ∧ c.values.Perm s.values ∧ c.well_formed = true ∧
      ((∀ a b, s.compare a b = true → s.compare b a = false) → c.heap_ordered = true) := by
  rw [well_formed_iff] at hwf
  cases hroot : s.root with
  | null =>
    have := hwf.1
    simp [pairing_heap.values, hroot, Node.elems] at this
    exact absurd this hne
  | mk e c n =>
    obtain ⟨tot, htot, _, hns1, hperm, hord⟩ := rebuild_spec s.compare e c n
    refine ⟨{ compare := s.compare, sizeOf := s.sizeOf, root := tot }, ?_, rfl, rfl, ?_, ?_, ?_⟩
    · simp [pairing_heap.copy, hroot, hne, htot]
    · simpa [pairing_heap.values, hroot] using hperm
    · rw [well_formed_iff]
      refine ⟨?_, hns1⟩
      have h1 := hwf.1
      simp only [pairing_heap.values] at h1 ⊢
      rw [h1, hroot, hperm.length_eq]
    · intro hasym; exact hord hasym

/-- Assignment from another heap, empty or not, whatever the destination held. -/
theorem assign_spec (d s : pairing_heap α) (hwf : s.well_formed = true) :
    ∃ c, d.assign (Rhs.other s) = some c ∧ c.compare = s.compare ∧
      c.sizeOf = s.sizeOf ∧ c.values.Perm s.values ∧ c.well_formed = true ∧
      ((∀ a b, s.compare a b = true → s.compare b a = false) → c.heap_ordered = true) := by
  by_cases h0 : s.sizeOf = 0
  · have hwf2 := hwf
    rw [well_formed_iff] at hwf2
    have hv : s.values = [] := List.length_eq_zero.1 (by rw [← hwf2.1]; exact h0)
    refine ⟨{ compare := s.compare, sizeOf := s.sizeOf, root := .null }, ?_, rfl, rfl, ?_, ?_, ?_⟩
    · simp [pairing_heap.assign, h0]
    · rw [hv]; exact List.Perm.refl _
    · simp [pairing_heap.well_formed, h0, Node.count, Node.no_sibling]
    · intro _; rfl
  · obtain ⟨c, hc, r⟩ := copy_spec Node.null s hwf h0
    refine ⟨c, ?_, r⟩
    simp only [pairing_heap.copy, h0, if_false] at hc
    simp only [pairing_heap.assign, h0, if_false]
    exact hc

/-! ## The claims -/

/-- C1: for a comparator that is a strict weak ordering and any sequence of
`push` and `pop` calls applied to an initially empty heap, the calls all have a
result and, whenever the resulting heap is non-empty, `top()` returns a
currently held element `e` such that `compare(e, x)` is false for every
currently held element `x`. -/
theorem top_most_extreme_after_push_pop (compare : α → α → Bool)
    (hc : StrictWeakOrder compare) (ops : List (Op α))
    (hops : ops.all (fun op => op.is_push_or_pop) = true) :
    ∃ h, run (pairing_heap.empty_heap compare) ops = some h ∧
      (h.empty = false →
        ∃ e, h.top = some e ∧ e ∈ h.values ∧ ∀ x ∈ h.values, compare e x = false) := by
  obtain ⟨h, hrun, hcmp, hwf, hord⟩ :=
    run_spec compare hc ops (pairing_heap.empty_heap compare) rfl
      (empty_heap_well_formed compare) (empty_heap_ordered compare)
      (push_pop_preconditions ops hops _)
  refine ⟨h, hrun, ?_⟩
  intro hne
  have hne2 : h.sizeOf ≠ 0 := by simpa [pairing_heap.empty] using hne
  have := top_spec h (by rw [hcmp]; exact hc) hwf hord hne2
  rw [hcmp] at this
  exact this

/-- Witness of C1: pushes of 5 and 3, a pop, then pushes of 8 and 1 under
`std::less<int>`. -/
theorem top_most_extreme_after_push_pop_witness :
    StrictWeakOrder int_less ∧
    ([Op.push 5, Op.push 3, Op.pop, Op.push 8, Op.push 1] : List (Op Int)).all
        (fun op => op.is_push_or_pop) = true ∧
    ∃ h, run (pairing_heap.empty_heap int_less)
        [Op.push 5, Op.push 3, Op.pop, Op.push 8, Op.push 1] = some h ∧
      (h.empty = false →
        ∃ e, h.top = some e ∧ e ∈ h.values ∧ ∀ x ∈ h.values, int_less e x = false) :=
  ⟨int_less_total.toWeak, by decide,
    top_most_extreme_after_push_pop int_less int_less_total.toWeak _ (by decide)⟩

/-- C2: for every finite list of integers pushed one by one into an empty heap
with the default less-than comparator, alternately reading `top()` and calling
`pop()` until the heap is empty yields exactly the pushed values in
non-increasing order (a sorted permutation of the input), and the heap is
empty afterwards; pushing 5, 3, 8, 1 yields 8, 5, 3, 1. -/
theorem push_then_drain_sorts :
    (∀ xs : List Int, ∃ out hf,
      drain (xs.foldl pairing_heap.push (pairing_heap.empty_heap int_less)).sizeOf
          (xs.foldl pairing_heap.push (pairing_heap.empty_heap int_less)) = some (out, hf) ∧
        out.Perm xs ∧ out.Sorted (fun a b => a ≥ b) ∧ hf.empty = true) ∧
    extraction (([5, 3, 8, 1] : List Int).foldl pairing_heap.push
      (pairing_heap.empty_heap int_less)) = some [8, 5, 3, 1] := by
  refine ⟨?_, by decide⟩
  intro xs
  rw [foldl_push_eq]
  obtain ⟨k1, k2, k3, k4⟩ := from_range_spec int_less xs
  obtain ⟨out, hf, hdr, hperm, hpw, hfe, _⟩ :=
    drain_spec int_less int_less_total.toWeak _ (pairing_heap.from_range xs int_less) k1 k2
      (k4 (fun a b => int_less_total.toWeak.asymm)) (Nat.le_refl _)
  refine ⟨out, hf, hdr, hperm.trans k3, ?_, hfe⟩
  refine List.Pairwise.imp ?_ hpw
  intro a b hab
  simp only [int_less, decide_eq_false_iff_not] at hab
  omega

/-- C3: for every non-empty list of integers pushed into an empty heap built
with a greater-than comparator, `top()` returns the minimum of the pushed
values. -/
theorem top_is_minimum_with_greater (xs : List Int) (hne : xs ≠ []) :
    ∃ m, (xs.foldl pairing_heap.push (pairing_heap.empty_heap int_greater)).top = some m ∧
      m ∈ xs ∧ ∀ x ∈ xs, m ≤ x := by
  rw [foldl_push_eq]
  obtain ⟨k1, k2, k3, k4⟩ := from_range_spec int_greater xs
  have hsz : (pairing_heap.from_range xs int_greater).sizeOf ≠ 0 := by
    rw [(well_formed_iff _).1 k2 |>.1, k3.length_eq]
    simpa using hne
  obtain ⟨e, htop, hmem, hmax⟩ :=
    top_spec (pairing_heap.from_range xs int_greater) (by rw [k1]; exact int_greater_total.toWeak)
      k2 (k4 (fun a b => int_greater_total.toWeak.asymm)) hsz
  refine ⟨e, htop, k3.subset hmem, ?_⟩
  intro x hx
  have := hmax x (k3.symm.subset hx)
  rw [k1] at this
  simp only [int_greater, decide_eq_false_iff_not] at this
  omega

/-- Witness of C3: pushing 5, 3, 8, 1 gives `top() == 1`. -/
theorem top_is_minimum_with_greater_witness :
    ([5, 3, 8, 1] : List Int) ≠ [] ∧
    (∃ m, (([5, 3, 8, 1] : List Int).foldl pairing_heap.push
        (pairing_heap.empty_heap int_greater)).top = some m ∧
      m ∈ ([5, 3, 8, 1] : List Int) ∧ ∀ x ∈ ([5, 3, 8, 1] : List Int), m ≤ x) ∧
    (([5, 3, 8, 1] : List Int).foldl pairing_heap.push
        (pairing_heap.empty_heap int_greater)).top = some 1 :=
  ⟨by decide, top_is_minimum_with_greater [5, 3, 8, 1] (by decide), by decide⟩

/-- C4: for every non-empty heap, `pop()` removes exactly the root's element:
the values held before are those held after plus one occurrence of the value
`top()` returned before the call; if the root had no children the heap becomes
empty. -/
theorem pop_removes_exactly_the_root (h : pairing_heap α) (hwf : h.well_formed = true)
    (hne : h.empty = false) :
    ∃ t h1, h.top = some t ∧ h.pop = some h1 ∧ h.values.Perm (t :: h1.values) ∧
      (∀ e n, h.root = Node.mk e Node.null n →
        h1.root = Node.null ∧ h1.values = [] ∧ h1.empty = true) := by
  have hne2 : h.sizeOf ≠ 0 := by simpa [pairing_heap.empty] using hne
  obtain ⟨t, h1, htop, hpop, _, _, hperm, hwf1, hleaf, _⟩ := pop_spec h hwf hne2
  refine ⟨t, h1, htop, hpop, hperm, ?_⟩
  intro e n hroot
  have hr := hleaf e n hroot
  rw [well_formed_iff] at hwf1
  have hsz := hwf1.1
  simp only [pairing_heap.values, hr, Node.elems, List.length_nil] at hsz
  exact ⟨hr, by simp [pairing_heap.values, hr, Node.elems], by simp [pairing_heap.empty, hsz]⟩

/-- Witness of C4: the heap built from 5, 3, 8, 1 under `std::less<int>`. -/
theorem pop_removes_exactly_the_root_witness :
    (pairing_heap.from_range [5, 3, 8, 1] int_less).well_formed = true ∧
    (pairing_heap.from_range [5, 3, 8, 1] int_less).empty = false ∧
    ∃ t h1, (pairing_heap.from_range [5, 3, 8, 1] int_less).top = some t ∧
      (pairing_heap.from_range [5, 3, 8, 1] int_less).pop = some h1 ∧
      (pairing_heap.from_range [5, 3, 8, 1] int_less).values.Perm (t :: h1.values) ∧
      (∀ e n, (pairing_heap.from_range [5, 3, 8, 1] int_less).root = Node.mk e Node.null n →
        h1.root = Node.null ∧ h1.values = [] ∧ h1.empty = true) :=
  ⟨by decide, by decide,
    pop_removes_exactly_the_root (pairing_heap.from_range [5, 3, 8, 1] int_less) (by decide)
      (by decide)⟩

/-- C5: for a comparator that is a strict weak ordering, every heap obtained
from the default or the range constructor by a sequence of `push`, `pop`,
`update_priorities` and `updateElt` calls, each `updateElt` made on a live node
with a new value the comparator does not put before the current one, exists
and satisfies the heap-order predicate: for every non-root node,
`compare(parent value, node value)` is false. -/
theorem heap_order_after_any_calls (compare : α → α → Bool) (hc : StrictWeakOrder compare)
    (init : pairing_heap α)
    (hinit : init = pairing_heap.empty_heap compare ∨
      ∃ range, init = pairing_heap.from_range range compare)
    (ops : List (Op α)) (hpre : preconditions_hold init ops = true) :
    ∃ h, run init ops = some h ∧ h.compare = compare ∧ h.heap_order := by
  have hi : init.compare = compare ∧ init.well_formed = true ∧ init.heap_ordered = true := by
    rcases hinit with e | ⟨range, e⟩
    · subst e
      exact ⟨rfl, empty_heap_well_formed compare, empty_heap_ordered compare⟩
    · subst e
      obtain ⟨k1, k2, _, k4⟩ := from_range_spec compare range
      exact ⟨k1, k2, k4 (fun a b => hc.asymm)⟩
  obtain ⟨h, hrun, hcmp, _, hord⟩ := run_spec compare hc ops init hi.1 hi.2.1 hi.2.2 hpre
  exact ⟨h, hrun, hcmp, (heap_ordered_iff h).1 hord⟩

/-- Witness of C5: the heap built from 10, 5 under `std::less<int>`, then a
raise of the child to 20, a push, a pop, a rebuild and a call on the null
handle. -/
theorem heap_order_after_any_calls_witness :
    StrictWeakOrder int_less ∧
    preconditions_hold (pairing_heap.from_range [10, 5] int_less)
      [Op.updateElt (some [Link.child]) 20, Op.push 7, Op.pop, Op.update_priorities,
        Op.updateElt none 0] = true ∧
    ∃ h, run (pairing_heap.from_range [10, 5] int_less)
        [Op.updateElt (some [Link.child]) 20, Op.push 7, Op.pop, Op.update_priorities,
          Op.updateElt none 0] = some h ∧ h.compare = int_less ∧ h.heap_order :=
  ⟨int_less_total.toWeak, by decide,
    heap_order_after_any_calls int_less int_less_total.toWeak
      (pairing_heap.from_range [10, 5] int_less) (Or.inr ⟨[10, 5], rfl⟩) _ (by decide)⟩

/-- C6: in a heap-ordered heap, for a live handle whose node holds `o` and a
value `v` with `compare(v, o)` false, `updateElt(h, v)` leaves the size
unchanged, the held values are the old ones with one occurrence of `o`
replaced by `v`, heap order still holds, and if the comparator puts every
other held value before `v` then `top()` is `v`. -/
theorem updateElt_effect (h : pairing_heap α) (node : Handle) (o v : α)
    (hc : StrictWeakOrder h.compare) (hwf : h.well_formed = true)
    (hord : h.heap_ordered = true) (hnode : eltAt h.root node = some o)
    (hpre : h.compare v o = false) :
    (h.updateElt (some node) v).size = h.size ∧
    (h.updateElt (some node) v).heap_order ∧
    ∃ rest, h.values.Perm (o :: rest) ∧ (h.updateElt (some node) v).values.Perm (v :: rest) ∧
      ((∀ x ∈ rest, h.compare x v = true) → (h.updateElt (some node) v).top = some v) := by
  obtain ⟨_, h2, h3, _⟩ := updateElt_spec h node v o hwf hnode
  obtain ⟨rest, hrest⟩ := eltAt_split hnode
  refine ⟨h2, (heap_ordered_iff _).1 (updateElt_ordered h node v o hc hnode hpre hord), rest,
    hrest, ?_, ?_⟩
  · have h4 : (o :: (h.updateElt (some node) v).values).Perm (o :: v :: rest) :=
      h3.trans ((List.Perm.cons v hrest).trans (List.Perm.swap _ _ _))
    exact h4.cons_inv
  · intro hall
    rw [well_formed_iff] at hwf
    apply updateElt_top h node v o (fun a b => hc.asymm) hwf.2 hnode
    intro q x hq hx
    obtain ⟨l, hl⟩ := eltAt_two hnode hx (fun e => hq e.symm)
    have h5 : rest.Perm (x :: l) := (hrest.symm.trans hl).cons_inv
    exact hall x (h5.symm.subset (List.mem_cons_self _ _))

/-- Witness of C6: push 10 giving a handle, `updateElt` of that handle to 20,
then `top() == 20`. -/
theorem updateElt_effect_witness :
    StrictWeakOrder int_less ∧
    ((pairing_heap.empty_heap int_less).add_node 10).1.well_formed = true ∧
    ((pairing_heap.empty_heap int_less).add_node 10).1.heap_ordered = true ∧
    eltAt ((pairing_heap.empty_heap int_less).add_node 10).1.root
      ((pairing_heap.empty_heap int_less).add_node 10).2 = some 10 ∧
    int_less 20 10 = false ∧
    ((((pairing_heap.empty_heap int_less).add_node 10).1.updateElt
        (some ((pairing_heap.empty_heap int_less).add_node 10).2) 20).size
      = ((pairing_heap.empty_heap int_less).add_node 10).1.size ∧
    (((pairing_heap.empty_heap int_less).add_node 10).1.updateElt
        (some ((pairing_heap.empty_heap int_less).add_node 10).2) 20).heap_order ∧
    ∃ rest, ((pairing_heap.empty_heap int_less).add_node 10).1.values.Perm (10 :: rest) ∧
      (((pairing_heap.empty_heap int_less).add_node 10).1.updateElt
        (some ((pairing_heap.empty_heap int_less).add_node 10).2) 20).values.Perm (20 :: rest) ∧
      ((∀ x ∈ rest, int_less x 20 = true) →
        (((pairing_heap.empty_heap int_less).add_node 10).1.updateElt
          (some ((pairing_heap.empty_heap int_less).add_node 10).2) 20).top = some 20)) ∧
    (((pairing_heap.empty_heap int_less).add_node 10).1.updateElt
        (some ((pairing_heap.empty_heap int_less).add_node 10).2) 20).top = some 20 :=
  ⟨int_less_total.toWeak, by decide, by decide, by decide, by decide,
    updateElt_effect ((pairing_heap.empty_heap int_less).add_node 10).1
      ((pairing_heap.empty_heap int_less).add_node 10).2 10 20 int_less_total.toWeak
      (by decide) (by decide) (by decide) (by decide),
    by decide⟩

/-- C7: for every heap, empty or not, whose tree holds arbitrary values,
`update_priorities()` has a result that satisfies the heap-order predicate,
has the same `size()` and holds the same values with the same multiplicities
(the comparator never putting two values each before the other). -/
theorem update_priorities_restores_order (h : pairing_heap α) (hwf : h.well_formed = true)
    (hasym : ∀ a b, h.compare a b = true → h.compare b a = false) :
    ∃ h1, h.update_priorities = some h1 ∧ h1.heap_order ∧ h1.size = h.size ∧
      h1.values.Perm h.values := by
  obtain ⟨h1, hup, _, hsz, hperm, _, hord⟩ := update_priorities_spec h hwf
  exact ⟨h1, hup, (heap_ordered_iff h1).1 (hord hasym), hsz, hperm⟩

/-- Witness of C7: a tree with 1 at the root above 5 and 9 under
`std::less<int>`, out of order at both edges. -/
theorem update_priorities_restores_order_witness :
    (pairing_heap.mk int_less 3
      (Node.mk 1 (Node.mk 5 Node.null (Node.mk 9 Node.null Node.null)) Node.null)).well_formed
      = true ∧
    (∀ a b : Int, int_less a b = true → int_less b a = false) ∧
    (pairing_heap.mk int_less 3
      (Node.mk 1 (Node.mk 5 Node.null (Node.mk 9 Node.null Node.null)) Node.null)).heap_ordered
      = false ∧
    ∃ h1, (pairing_heap.mk int_less 3
        (Node.mk 1 (Node.mk 5 Node.null (Node.mk 9 Node.null Node.null)) Node.null)).update_priorities
        = some h1 ∧ h1.heap_order ∧
      h1.size = (pairing_heap.mk int_less 3
        (Node.mk 1 (Node.mk 5 Node.null (Node.mk 9 Node.null Node.null)) Node.null)).size ∧
      h1.values.Perm (pairing_heap.mk int_less 3
        (Node.mk 1 (Node.mk 5 Node.null (Node.mk 9 Node.null Node.null)) Node.null)).values :=
  ⟨by decide, fun _ _ => int_less_total.toWeak.asymm, by decide,
    update_priorities_restores_order
      (pairing_heap.mk int_less 3
        (Node.mk 1 (Node.mk 5 Node.null (Node.mk 9 Node.null Node.null)) Node.null))
      (by decide) (fun _ _ => int_less_total.toWeak.asymm)⟩

/-- C8: for a comparator that is a strict total order and a heap whose tree
holds its values in any arrangement, the values read by `top()`/`pop()` until
empty after `update_priorities()` are the values read the same way from a heap
built by the range constructor from the same values in any order. -/
theorem rebuild_extraction_same_as_fresh (h : pairing_heap α)
    (hc : StrictTotalOrder h.compare) (hwf : h.well_formed = true) (range : List α)
    (hrange : range.Perm h.values) :
    ∃ h1 out, h.update_priorities = some h1 ∧ extraction h1 = some out ∧
      extraction (pairing_heap.from_range range h.compare) = some out := by
  have hw := hc.toWeak
  obtain ⟨h1, hup, hcmp1, _, hperm1, hwf1, hord1⟩ := update_priorities_spec h hwf
  obtain ⟨out1, hf1, hd1, hp1, hs1, _, _⟩ :=
    drain_spec h.compare hw _ h1 hcmp1 hwf1 (hord1 (fun a b => hw.asymm)) (Nat.le_refl _)
  obtain ⟨k1, k2, k3, k4⟩ := from_range_spec h.compare range
  obtain ⟨out2, hf2, hd2, hp2, hs2, _, _⟩ :=
    drain_spec h.compare hw _ (pairing_heap.from_range range h.compare) k1 k2
      (k4 (fun a b => hw.asymm)) (Nat.le_refl _)
  have hperm : out1.Perm out2 :=
    hp1.trans (hperm1.trans (hrange.symm.trans (k3.symm.trans hp2.symm)))
  haveI : IsAntisymm α (fun a b => h.compare a b = false) := ⟨fun a b => hc.total a b⟩
  have heq : out1 = out2 := List.eq_of_perm_of_sorted hperm hs1 hs2
  refine ⟨h1, out1, hup, by simp [extraction, hd1], ?_⟩
  rw [heq]
  simp [extraction, hd2]

/-- Witness of C8: the tree with 1 above 5 and 9 against a heap built from
9, 1, 5; both yield 9, 5, 1. -/
theorem rebuild_extraction_same_as_fresh_witness :
    StrictTotalOrder int_less ∧
    (pairing_heap.mk int_less 3
      (Node.mk 1 (Node.mk 5 Node.null (Node.mk 9 Node.null Node.null)) Node.null)).well_formed
      = true ∧
    ([9, 1, 5] : List Int).Perm (pairing_heap.mk int_less 3
      (Node.mk 1 (Node.mk 5 Node.null (Node.mk 9 Node.null Node.null)) Node.null)).values ∧
    (∃ h1 out, (pairing_heap.mk int_less 3
        (Node.mk 1 (Node.mk 5 Node.null (Node.mk 9 Node.null Node.null)) Node.null)).update_priorities
        = some h1 ∧ extraction h1 = some out ∧
      extraction (pairing_heap.from_range [9, 1, 5] int_less) = some out) ∧
    extraction (pairing_heap.from_range [9, 1, 5] int_less) = some [9, 5, 1] :=
  ⟨int_less_total, by decide, by decide,
    rebuild_extraction_same_as_fresh
      (pairing_heap.mk int_less 3
        (Node.mk 1 (Node.mk 5 Node.null (Node.mk 9 Node.null Node.null)) Node.null))
      int_less_total (by decide) [9, 1, 5] (by decide),
    by decide⟩

/-- C9, the failing case: copy construction from an empty heap returns before
`root` is assigned.  The copy keeps whatever pointer the storage held; with a
stale node holding 7 there, the copy reports size 0 yet its root leads to an
element the source never held, the class invariant is broken, and a `push(1)`
on the copy melds with the stale node so that `top()` is 7.  Assignment from
the same empty heap sets `root` to null. -/
theorem copy_of_empty_leaves_root_unassigned :
    (∀ (uninit_root : Node Int) (comp : Int → Int → Bool),
      (pairing_heap.copy uninit_root (pairing_heap.empty_heap comp)).map (fun c => c.root)
        = some uninit_root) ∧
    (pairing_heap.copy (Node.new 7) (pairing_heap.empty_heap int_less)).map
        (fun c => (c.size, c.values, c.well_formed, (c.push 1).top))
      = some (0, [7], false, some 7) ∧
    (pairing_heap.empty_heap int_less).values = [] ∧
    ((pairing_heap.mk int_less 1 (Node.new 7)).assign
        (Rhs.other (pairing_heap.empty_heap int_less))).map
        (fun c => (c.size, c.values, c.well_formed, (c.push 1).top))
      = some (0, [], true, some 1) := by
  refine ⟨?_, by decide, by decide, by decide⟩
  intro uninit_root comp
  rfl

theorem run_size (ops : List (Op α)) (hops : ops.all (fun op => op.is_push_or_pop) = true) :
    ∀ h0 : pairing_heap α, h0.well_formed = true → pops_on_non_empty h0 ops = true →
      ∃ h, run h0 ops = some h ∧ h.sizeOf + count_pop ops = h0.sizeOf + count_push ops := by
  induction ops with
  | nil => intro h0 _ _; exact ⟨h0, rfl, rfl⟩
  | cons op ops ih =>
    intro h0 hwf hpop
    simp only [List.all_cons, Bool.and_eq_true] at hops
    simp only [pops_on_non_empty, Bool.and_eq_true] at hpop
    cases op with
    | push val =>
      obtain ⟨_, a2, _, a4, _, _⟩ := add_node_spec h0 val hwf
      have hp2 := hpop.2
      simp only [step] at hp2
      obtain ⟨h, hrun, hsz⟩ := ih hops.2 (h0.push val) a4 hp2
      refine ⟨h, by simpa [run, step] using hrun, ?_⟩
      simp only [count_pop, count_push]
      simp only [pairing_heap.push] at hsz
      omega
    | pop =>
      have hne : h0.sizeOf ≠ 0 := by simpa [pairing_heap.empty] using hpop.1
      obtain ⟨t, h1, _, hp, _, hsz1, _, hwf1, _, _⟩ := pop_spec h0 hwf hne
      have hp2 := hpop.2
      simp only [step, hp] at hp2
      obtain ⟨h, hrun, hsz⟩ := ih hops.2 h1 hwf1 hp2
      refine ⟨h, by simpa [run, step, hp] using hrun, ?_⟩
      simp only [count_pop, count_push]
      omega
    | update_priorities => simp [Op.is_push_or_pop] at hops
    | updateElt node v => simp [Op.is_push_or_pop] at hops

/-- C10: for every sequence of `push` and `pop` calls applied to an initially
empty heap in which every `pop` is made on a non-empty heap, all calls have a
result and afterwards `size()` plus the number of pops is the number of pushes:
`size() == k - j` with `j <= k`. -/
theorem size_after_push_pop (compare : α → α → Bool) (ops : List (Op α))
    (hops : ops.all (fun op => op.is_push_or_pop) = true)
    (hpop : pops_on_non_empty (pairing_heap.empty_heap compare) ops = true) :
    ∃ h, run (pairing_heap.empty_heap compare) ops = some h ∧
      count_pop ops ≤ count_push ops ∧ h.size = count_push ops - count_pop ops := by
  obtain ⟨h, hrun, hsz⟩ :=
    run_size ops hops (pairing_heap.empty_heap compare) (empty_heap_well_formed compare) hpop
  refine ⟨h, hrun, ?_, ?_⟩
  · simp only [pairing_heap.empty_heap] at hsz; omega
  · simp only [pairing_heap.empty_heap, pairing_heap.size] at hsz ⊢; omega

/-- Witness of C10: three pushes and two pops leave one element. -/
theorem size_after_push_pop_witness :
    ([Op.push 5, Op.push 3, Op.pop, Op.push 8, Op.pop] : List (Op Int)).all
        (fun op => op.is_push_or_pop) = true ∧
    pops_on_non_empty (pairing_heap.empty_heap int_less)
      [Op.push 5, Op.push 3, Op.pop, Op.push 8, Op.pop] = true ∧
    (∃ h, run (pairing_heap.empty_heap int_less)
        [Op.push 5, Op.push 3, Op.pop, Op.push 8, Op.pop] = some h ∧
      count_pop ([Op.push 5, Op.push 3, Op.pop, Op.push 8, Op.pop] : List (Op Int)) ≤
        count_push ([Op.push 5, Op.push 3, Op.pop, Op.push 8, Op.pop] : List (Op Int)) ∧
      h.size = count_push ([Op.push 5, Op.push 3, Op.pop, Op.push 8, Op.pop] : List (Op Int))
        - count_pop ([Op.push 5, Op.push 3, Op.pop, Op.push 8, Op.pop] : List (Op Int))) ∧
    (run (pairing_heap.empty_heap int_less)
        [Op.push 5, Op.push 3, Op.pop, Op.push 8, Op.pop]).map (fun h => h.size) = some 1 :=
  ⟨by decide, by decide,
    size_after_push_pop int_less [Op.push 5, Op.push 3, Op.pop, Op.push 8, Op.pop] (by decide)
      (by decide),
    by decide⟩

/-! ## Shape and frame of `updateElt` -/

theorem setElt_shape (t : Node α) (p : Handle) (x : α) : (setElt t p x).shape = t.shape := by
  induction t generalizing p with
  | null => rfl
  | mk e c n ihc ihn =>
    match p with
    | [] => rfl
    | .child :: r => simp [setElt, Node.shape, ihc]
    | .next :: r => simp [setElt, Node.shape, ihn]

theorem bubble_up_shape (compare : α → α → Bool) (ups : List Handle) :
    ∀ (root : Node α) (cNode : Handle),
      (bubble_up compare root ups cNode).shape = root.shape := by
  induction ups with
  | nil => intro root cNode; rfl
  | cons Parent up ih =>
    intro root cNode
    simp only [bubble_up]
    cases hP : eltAt root Parent with
    | none => rfl
    | some p =>
      cases hC : eltAt root cNode with
      | none => rfl
      | some c =>
        simp only
        split
        · rw [ih, setElt_shape, setElt_shape]
        · rfl

/-- The loop of `updateElt` writes only to `cNode` and to the nodes on the
chain of parents it is given. -/
theorem bubble_up_frame (compare : α → α → Bool) (ups : List Handle) :
    ∀ (root : Node α) (cNode q : Handle), q ≠ cNode → q ∉ ups →
      eltAt (bubble_up compare root ups cNode) q = eltAt root q := by
  induction ups with
  | nil => intro root cNode q _ _; rfl
  | cons Parent up ih =>
    intro root cNode q hq hups
    simp only [List.mem_cons, not_or] at hups
    simp only [bubble_up]
    cases hP : eltAt root Parent with
    | none => rfl
    | some p =>
      cases hC : eltAt root cNode with
      | none => rfl
      | some c =>
        simp only
        split
        · rw [ih _ Parent q hups.1 hups.2, eltAt_setElt_ne _ _ (fun e => hq e.symm),
            eltAt_setElt_ne _ _ (fun e => hups.1 e.symm)]
        · rfl

theorem updateElt_shape (h : pairing_heap α) (node : Handle) (v : α) :
    (h.updateElt (some node) v).root.shape = h.root.shape ∧
    (h.updateElt (some node) v).sizeOf = h.sizeOf := by
  simp only [pairing_heap.updateElt]
  cases hups : parents node with
  | nil => exact ⟨setElt_shape _ _ _, rfl⟩
  | cons Parent up =>
    simp only
    cases hP : eltAt (setElt h.root node v) Parent with
    | none => exact ⟨setElt_shape _ _ _, rfl⟩
    | some p =>
      simp only
      split
      · exact ⟨setElt_shape _ _ _, rfl⟩
      · exact ⟨by rw [bubble_up_shape, setElt_shape], rfl⟩

theorem updateElt_frame (h : pairing_heap α) (node : Handle) (v : α) (q : Handle)
    (hq : q ≠ node) (hups : q ∉ parents node) :
    eltAt (h.updateElt (some node) v).root q = eltAt h.root q := by
  have h0 : eltAt (setElt h.root node v) q = eltAt h.root q :=
    eltAt_setElt_ne _ _ (fun e => hq e.symm)
  simp only [pairing_heap.updateElt]
  cases hp : parents node with
  | nil => exact h0
  | cons Parent up =>
    simp only
    cases hP : eltAt (setElt h.root node v) Parent with
    | none => exact h0
    | some p =>
      simp only
      split
      · exact h0
      · rw [bubble_up_frame _ _ _ _ _ hq (by rw [← hp]; exact hups)]
        exact h0

/-! ## The class invariant along any sequence of calls -/

/-- One call keeps the class invariant, the new value of an `updateElt` being
arbitrary. -/
theorem step_well_formed (h : pairing_heap α) (op : Op α) (hwf : h.well_formed = true)
    (hlive : (match op with
      | .updateElt (some node) _ => (eltAt h.root node).isSome
      | _ => true) = true) :
    ∃ h1, step h op = some h1 ∧ h1.well_formed = true := by
  cases op with
  | push val =>
    obtain ⟨_, _, _, h4, _, _⟩ := add_node_spec h val hwf
    exact ⟨_, rfl, h4⟩
  | pop =>
    by_cases h0 : h.sizeOf = 0
    · exact ⟨h, pop_of_empty h h0, hwf⟩
    · obtain ⟨t, h1, _, hpop, _, _, _, hwf1, _, _⟩ := pop_spec h hwf h0
      exact ⟨h1, hpop, hwf1⟩
  | update_priorities =>
    obtain ⟨h1, hup, _, _, _, hwf1, _⟩ := update_priorities_spec h hwf
    exact ⟨h1, hup, hwf1⟩
  | updateElt node new_value =>
    cases node with
    | none => exact ⟨h, rfl, hwf⟩
    | some node =>
      simp only at hlive
      cases hnode : eltAt h.root node with
      | none => rw [hnode] at hlive; simp at hlive
      | some o =>
        obtain ⟨_, _, _, h4⟩ := updateElt_spec h node new_value o hwf hnode
        exact ⟨_, rfl, h4⟩

theorem run_well_formed (ops : List (Op α)) :
    ∀ h : pairing_heap α, h.well_formed = true → handles_live h ops = true →
      ∃ h1, run h ops = some h1 ∧ h1.well_formed = true := by
  induction ops with
  | nil => intro h hwf _; exact ⟨h, rfl, hwf⟩
  | cons op ops ih =>
    intro h hwf hlive
    simp only [handles_live, Bool.and_eq_true] at hlive
    obtain ⟨h1, hstep, hwf1⟩ := step_well_formed h op hwf hlive.1
    have hl2 := hlive.2
    rw [hstep] at hl2
    obtain ⟨h2, hrun, hwf2⟩ := ih h1 hwf1 hl2
    exact ⟨h2, by simp [run, hstep, hrun], hwf2⟩

/-! ## The claims, continued -/

/-- C11: a default-constructed heap satisfies `empty()` and `size() == 0`, and
`pop()` on any empty heap is a no-op: it has a result, the state is unchanged
and `empty()` is still true afterwards. -/
theorem default_heap_empty_and_pop_noop (comp : α → α → Bool) (h : pairing_heap α)
    (hempty : h.empty = true) :
    (pairing_heap.empty_heap comp).empty = true ∧
    (pairing_heap.empty_heap comp).size = 0 ∧
    (pairing_heap.empty_heap comp).root = Node.null ∧
    (pairing_heap.empty_heap comp).pop = some (pairing_heap.empty_heap comp) ∧
    h.pop = some h ∧ h.pop.map (fun h1 => h1.empty) = some true := by
  have h0 : h.sizeOf = 0 := by simpa [pairing_heap.empty] using hempty
  refine ⟨rfl, rfl, rfl, rfl, pop_of_empty h h0, ?_⟩
  rw [pop_of_empty h h0]
  simp [hempty]

/-- Witness of C11: the heap left after a push and a pop under
`std::less<int>`. -/
theorem default_heap_empty_and_pop_noop_witness :
    (pairing_heap.mk int_less 0 Node.null).empty = true ∧
    ((pairing_heap.empty_heap int_less).empty = true ∧
      (pairing_heap.empty_heap int_less).size = 0 ∧
      (pairing_heap.empty_heap int_less).root = Node.null ∧
      (pairing_heap.empty_heap int_less).pop = some (pairing_heap.empty_heap int_less) ∧
      (pairing_heap.mk int_less 0 Node.null).pop = some (pairing_heap.mk int_less 0 Node.null) ∧
      (pairing_heap.mk int_less 0 Node.null).pop.map (fun h1 => h1.empty) = some true) :=
  ⟨by decide,
    default_heap_empty_and_pop_noop int_less (pairing_heap.mk int_less 0 Node.null) (by decide)⟩

/-- C12: for every finite range, the range constructor yields the same heap as
pushing the elements of the range in order into an empty heap; the heap holds
exactly the elements of the range, `size()` is the length of the range, and an
empty range yields `size() == 0` and `empty()`. -/
theorem range_constructor_pushes_in_order (comp : α → α → Bool) (range : List α) :
    pairing_heap.from_range range comp =
      range.foldl pairing_heap.push (pairing_heap.empty_heap comp) ∧
    (pairing_heap.from_range range comp).values.Perm range ∧
    (pairing_heap.from_range range comp).size = range.length ∧
    (pairing_heap.from_range ([] : List α) comp).size = 0 ∧
    (pairing_heap.from_range ([] : List α) comp).empty = true := by
  obtain ⟨_, k2, k3, _⟩ := from_range_spec comp range
  refine ⟨rfl, k3, ?_, rfl, rfl⟩
  rw [well_formed_iff] at k2
  simp only [pairing_heap.size]
  rw [k2.1, k3.length_eq]

/-- C13: in every heap obtained from the default or the range constructor by a
sequence of `push`, `pop`, `updateElt` (on live nodes, with any value) and
`update_priorities` calls, `sizeOf` is the number of nodes reachable from the
root through `child` and `next` links; hence `empty()` is true exactly when the
root is null, and `top()` has a result whenever `empty()` is false. -/
theorem size_counts_reachable_nodes (comp : α → α → Bool) (init : pairing_heap α)
    (hinit : init = pairing_heap.empty_heap comp ∨
      ∃ range, init = pairing_heap.from_range range comp)
    (ops : List (Op α)) (hlive : handles_live init ops = true) :
    ∃ h, run init ops = some h ∧ h.sizeOf = h.root.count ∧
      (h.empty = true ↔ h.root = Node.null) ∧ (h.empty = false → ∃ e, h.top = some e) := by
  have hi : init.well_formed = true := by
    rcases hinit with e | ⟨range, e⟩
    · subst e; exact empty_heap_well_formed comp
    · subst e; exact (from_range_spec comp range).2.1
  obtain ⟨h, hrun, hwf⟩ := run_well_formed ops init hi hlive
  have hsz : h.sizeOf = h.root.count := by
    simp only [pairing_heap.well_formed, Bool.and_eq_true, beq_iff_eq] at hwf
    exact hwf.1
  have hiff : h.empty = true ↔ h.root = Node.null := by
    simp only [pairing_heap.empty, beq_iff_eq, hsz]
    cases h.root with
    | null => simp [Node.count]
    | mk e c n => simp [Node.count]
  refine ⟨h, hrun, hsz, hiff, ?_⟩
  intro hne
  cases hr : h.root with
  | null => rw [hiff.2 hr] at hne; exact absurd hne (by decide)
  | mk e c n => exact ⟨e, by simp [pairing_heap.top, hr]⟩

/-- Witness of C13: a heap built from 10, 5, then an `updateElt` that lowers
the child against the precondition, a push, two pops and a rebuild. -/
theorem size_counts_reachable_nodes_witness :
    handles_live (pairing_heap.from_range [10, 5] int_less)
      [Op.updateElt (some [Link.child]) 1, Op.push 7, Op.pop, Op.pop, Op.update_priorities]
      = true ∧
    ∃ h, run (pairing_heap.from_range [10, 5] int_less)
        [Op.updateElt (some [Link.child]) 1, Op.push 7, Op.pop, Op.pop, Op.update_priorities]
        = some h ∧ h.sizeOf = h.root.count ∧
      (h.empty = true ↔ h.root = Node.null) ∧ (h.empty = false → ∃ e, h.top = some e) :=
  ⟨by decide,
    size_counts_reachable_nodes int_less (pairing_heap.from_range [10, 5] int_less)
      (Or.inr ⟨[10, 5], rfl⟩) _ (by decide)⟩

/-- C14: for two non-null trees that each satisfy heap order and a comparator
that never puts two values each before the other, `meld(a, b)` returns a
heap-ordered tree holding the elements of both; if `compare(a.elt, b.elt)` the
result is `b` with `a` put in front of the children `b` had, otherwise (ties
included) it is `a` with `b` put in front of the children `a` had; the winner
keeps its own `next` and its former children follow the loser unchanged. -/
theorem meld_contract (compare : α → α → Bool)
    (hasym : ∀ x y, compare x y = true → compare y x = false)
    (e1 : α) (c1 n1 : Node α) (e2 : α) (c2 n2 : Node α)
    (ha : tree_ordered compare (Node.mk e1 c1 n1) = true)
    (hb : tree_ordered compare (Node.mk e2 c2 n2) = true) :
    tree_ordered compare (meld compare (Node.mk e1 c1 n1) (Node.mk e2 c2 n2)) = true ∧
    (meld compare (Node.mk e1 c1 n1) (Node.mk e2 c2 n2)).tree_elems.Perm
      ((Node.mk e1 c1 n1).tree_elems ++ (Node.mk e2 c2 n2).tree_elems) ∧
    (compare e1 e2 = true →
      meld compare (Node.mk e1 c1 n1) (Node.mk e2 c2 n2) = Node.mk e2 (Node.mk e1 c1 c2) n2) ∧
    (compare e1 e2 = false →
      meld compare (Node.mk e1 c1 n1) (Node.mk e2 c2 n2) = Node.mk e1 (Node.mk e2 c2 c1) n1) := by
  refine ⟨meld_tree_ordered hasym _ _ ha hb, meld_tree_elems compare _ _, ?_, ?_⟩
  · intro hcmp; simp [meld, hcmp]
  · intro hcmp; simp [meld, hcmp]

/-- Witness of C14: the trees 5 above 3 and 8 above 1 under `std::less<int>`. -/
theorem meld_contract_witness :
    (∀ x y : Int, int_less x y = true → int_less y x = false) ∧
    tree_ordered int_less (Node.mk 5 (Node.new 3) Node.null) = true ∧
    tree_ordered int_less (Node.mk 8 (Node.new 1) Node.null) = true ∧
    (tree_ordered int_less
        (meld int_less (Node.mk 5 (Node.new 3) Node.null) (Node.mk 8 (Node.new 1) Node.null))
        = true ∧
      (meld int_less (Node.mk 5 (Node.new 3) Node.null)
          (Node.mk 8 (Node.new 1) Node.null)).tree_elems.Perm
        ((Node.mk 5 (Node.new 3) Node.null).tree_elems ++
          (Node.mk 8 (Node.new 1) Node.null).tree_elems) ∧
      (int_less 5 8 = true →
        meld int_less (Node.mk 5 (Node.new 3) Node.null) (Node.mk 8 (Node.new 1) Node.null)
          = Node.mk 8 (Node.mk 5 (Node.new 3) (Node.new 1)) Node.null) ∧
      (int_less 5 8 = false →
        meld int_less (Node.mk 5 (Node.new 3) Node.null) (Node.mk 8 (Node.new 1) Node.null)
          = Node.mk 5 (Node.mk 8 (Node.new 1) (Node.new 3)) Node.null)) :=
  ⟨fun _ _ => int_less_total.toWeak.asymm, by decide, by decide,
    meld_contract int_less (fun _ _ => int_less_total.toWeak.asymm) 5 (Node.new 3) Node.null 8
      (Node.new 1) Node.null (by decide) (by decide)⟩

/-- C16: `updateElt` does not check its precondition.  After `add_node(10)`
giving a handle and `push(5)` the heap is heap ordered with the handle on 10;
`updateElt(handle, 1)`, with `compare(1, 10)` true, still writes 1: the root
holds 1 above the child 5, heap order is broken and `top()` is 1 although
`compare(1, 5)` is true. -/
theorem updateElt_does_not_validate :
    ((((pairing_heap.empty_heap int_less).add_node 10).1.push 5).heap_ordered = true ∧
      eltAt (((pairing_heap.empty_heap int_less).add_node 10).1.push 5).root
        ((pairing_heap.empty_heap int_less).add_node 10).2 = some 10 ∧
      int_less 1 10 = true) ∧
    ((((pairing_heap.empty_heap int_less).add_node 10).1.push 5).updateElt
        (some ((pairing_heap.empty_heap int_less).add_node 10).2) 1).root
      = Node.mk 1 (Node.new 5) Node.null ∧
    ((((pairing_heap.empty_heap int_less).add_node 10).1.push 5).updateElt
        (some ((pairing_heap.empty_heap int_less).add_node 10).2) 1).heap_ordered = false ∧
    ((((pairing_heap.empty_heap int_less).add_node 10).1.push 5).updateElt
        (some ((pairing_heap.empty_heap int_less).add_node 10).2) 1).top = some 1 ∧
    (5 : Int) ∈ ((((pairing_heap.empty_heap int_less).add_node 10).1.push 5).updateElt
        (some ((pairing_heap.empty_heap int_less).add_node 10).2) 1).values ∧
    int_less 1 5 = true := by
  decide

/-- C17: handles follow tree positions, not values.  `add_node(10)` gives
`h1`, `add_node(5)` gives `h2` (the first node stays at the root, so `h1` still
reads 10 and `h2` reads 5); `updateElt(h2, 20)` respects the precondition and
afterwards `*h1 == 20` and `*h2 == 10`. -/
theorem handles_track_positions :
    (eltAt (((pairing_heap.empty_heap int_less).add_node 10).1.add_node 5).1.root
        ((pairing_heap.empty_heap int_less).add_node 10).2 = some 10 ∧
      eltAt (((pairing_heap.empty_heap int_less).add_node 10).1.add_node 5).1.root
        (((pairing_heap.empty_heap int_less).add_node 10).1.add_node 5).2 = some 5 ∧
      int_less 20 5 = false) ∧
    eltAt ((((pairing_heap.empty_heap int_less).add_node 10).1.add_node 5).1.updateElt
        (some (((pairing_heap.empty_heap int_less).add_node 10).1.add_node 5).2) 20).root
      ((pairing_heap.empty_heap int_less).add_node 10).2 = some 20 ∧
    eltAt ((((pairing_heap.empty_heap int_less).add_node 10).1.add_node 5).1.updateElt
        (some (((pairing_heap.empty_heap int_less).add_node 10).1.add_node 5).2) 20).root
      (((pairing_heap.empty_heap int_less).add_node 10).1.add_node 5).2 = some 10 := by
  decide

/-- C18: for every heap, handle to a node of it and value (precondition met or
not), `updateElt` leaves the shape of the tree unchanged: the `child` and
`next` links of every node, hence the parent of every node, and the size are
as before, and the stored value can differ only at the node of the handle and
at its ancestors on the way to the root. -/
theorem updateElt_keeps_shape (h : pairing_heap α) (node : Handle) (o v : α)
    (_hnode : eltAt h.root node = some o) :
    (h.updateElt (some node) v).root.shape = h.root.shape ∧
    (h.updateElt (some node) v).size = h.size ∧
    ∀ q : Handle, q ≠ node → q ∉ parents node →
      eltAt (h.updateElt (some node) v).root q = eltAt h.root q := by
  obtain ⟨h1, h2⟩ := updateElt_shape h node v
  exact ⟨h1, h2, fun q hq hups => updateElt_frame h node v q hq hups⟩

/-- Witness of C18: the heap built from 10, 5, 7 (10 above 7 and 5) and a
raise of the second child from 5 to 20. -/
theorem updateElt_keeps_shape_witness :
    eltAt (pairing_heap.from_range [10, 5, 7] int_less).root [Link.child, Link.next]
      = some 5 ∧
    (((pairing_heap.from_range [10, 5, 7] int_less).updateElt
        (some [Link.child, Link.next]) 20).root.shape
      = (pairing_heap.from_range [10, 5, 7] int_less).root.shape ∧
    ((pairing_heap.from_range [10, 5, 7] int_less).updateElt
        (some [Link.child, Link.next]) 20).size
      = (pairing_heap.from_range [10, 5, 7] int_less).size ∧
    ∀ q : Handle, q ≠ [Link.child, Link.next] → q ∉ parents [Link.child, Link.next] →
      eltAt ((pairing_heap.from_range [10, 5, 7] int_less).updateElt
          (some [Link.child, Link.next]) 20).root q
        = eltAt (pairing_heap.from_range [10, 5, 7] int_less).root q) ∧
    ((pairing_heap.from_range [10, 5, 7] int_less).updateElt
        (some [Link.child, Link.next]) 20).root
      = Node.mk 20 (Node.mk 7 Node.null (Node.new 10)) Node.null :=
  ⟨by decide,
    updateElt_keeps_shape (pairing_heap.from_range [10, 5, 7] int_less)
      [Link.child, Link.next] 5 20 (by decide),
    by decide⟩

/-- C20, the failing case: copy construction from an empty heap leaves `root`
unassigned.  With a stale node holding 7 in the storage of the new object, the
copy has size 0 but a non-null root, and `push(1)` on it melds the new node
under the stale one: `top()` is 7, not 1, and two elements are reachable while
`size()` is 1.  Only when the storage happened to hold a null pointer does the
copy behave as an empty heap. -/
theorem copy_of_empty_then_push :
    (pairing_heap.copy (Node.new 7) (pairing_heap.empty_heap int_less)).map
        (fun c => (c.size, decide (c.root = Node.null)))
      = some (0, false) ∧
    (pairing_heap.copy (Node.new 7) (pairing_heap.empty_heap int_less)).map
        (fun c => ((c.push 1).top, (c.push 1).size, (c.push 1).values))
      = some (some 7, 1, [7, 1]) ∧
    (pairing_heap.copy Node.null (pairing_heap.empty_heap int_less)).map
        (fun c => ((c.push 1).top, (c.push 1).size, (c.push 1).values))
      = some (some 1, 1, [1]) := by
  decide

/-! ## The pairing done by `pop` -/

theorem detach_meld (compare : α → α → Bool) (a b : Node α) :
    (meld compare a b).detach = meld compare a.detach b.detach := by
  cases a with
  | null => cases b <;> rfl
  | mk e1 c1 n1 =>
    cases b with
    | null => rfl
    | mk e2 c2 n2 =>
      by_cases hcmp : compare e1 e2 = true <;> simp [meld, Node.detach, hcmp]

theorem meld_queue_detach (compare : α → α → Bool) (fuel : Nat) :
    ∀ l : List (Node α),
      meld_queue compare fuel (l.map Node.detach) = (meld_queue compare fuel l).map Node.detach := by
  induction fuel with
  | zero =>
    intro l
    match l with
    | [] => rfl
    | [t] => rfl
    | _ :: _ :: _ => rfl
  | succ fuel ih =>
    intro l
    match l with
    | [] => rfl
    | [t] => rfl
    | first :: second :: rest =>
      simp only [List.map_cons, meld_queue]
      rw [← ih]
      simp [detach_meld]

theorem push_children_detach (t : Node α) :
    ∀ acc : List (Node α),
      (push_children t acc).map Node.detach = (child_list t).reverse ++ acc.map Node.detach := by
  induction t with
  | null => intro acc; simp [push_children, child_list]
  | mk e c n _ ihn =>
    intro acc
    simp only [push_children, child_list, List.reverse_cons, List.append_assoc,
      List.singleton_append]
    rw [ihn]
    simp [Node.detach]

/-- The tree `pop` installs, for a root with at least one child: the loop that
melds the two front trees and appends the result at the back, run on the
children of the removed root taken from the last sibling to the first. -/
theorem pop_root_eq (h : pairing_heap α) (e ce : α) (cc cn n : Node α)
    (hroot : h.root = Node.mk e (Node.mk ce cc cn) n) (hne : h.sizeOf ≠ 0) :
    ∃ r, meld_queue h.compare (child_list (Node.mk ce cc cn)).length
        (child_list (Node.mk ce cc cn)).reverse = some r ∧
      h.pop = some { h with sizeOf := h.sizeOf - 1, root := r } := by
  obtain ⟨out, hout, _, hnn, _, _⟩ :=
    meld_queue_spec h.compare _ (push_children cn [Node.mk ce cc cn])
      (push_children_ne_nil cn _ (by simp)) (Nat.le_succ _)
  have hout_ne : out ≠ Node.null := hnn (push_children_ne_null cn _ (by simp))
  have hmap : (push_children cn [Node.mk ce cc cn]).map Node.detach
      = (child_list (Node.mk ce cc cn)).reverse := by
    rw [push_children_detach]
    simp [child_list, Node.detach]
  have hlen : (push_children cn [Node.mk ce cc cn]).length
      = (child_list (Node.mk ce cc cn)).length := by
    have := congrArg List.length hmap
    simpa using this
  refine ⟨out.detach, ?_, ?_⟩
  · rw [← hmap, ← hlen, meld_queue_detach, hout]
    rfl
  · match out, hout_ne, hout with
    | .mk oe oc _, _, hout => simp [pairing_heap.pop, hroot, hne, hout, Node.detach]

/-- C15 as stated fails: in the heap built from 9, 5, 4, 3, 2, 1 under
`std::less<int>` the root 9 has the children 1, 2, 3, 4, 5.  `pop()` installs 5
above 3 (with child 2), 1 and 4, whereas the two-pass pairing of the children
gives 5 above 2 (with child 1) and 4 (with child 3).  The trees differ whether
the two-pass pairing takes the children in sibling order or from the last to
the first, and whichever way round the second pass calls `meld`. -/
theorem pop_is_not_two_pass :
    (pairing_heap.from_range [9, 5, 4, 3, 2, 1] int_less).root
      = Node.mk 9 (Node.mk 1 Node.null (Node.mk 2 Node.null (Node.mk 3 Node.null
          (Node.mk 4 Node.null (Node.new 5))))) Node.null ∧
    (pairing_heap.from_range [9, 5, 4, 3, 2, 1] int_less).pop.map (fun h => h.root)
      = some (Node.mk 5 (Node.mk 3 (Node.new 2) (Node.mk 1 Node.null (Node.new 4))) Node.null) ∧
    spec_two_pass int_less (child_list (Node.mk 1 Node.null (Node.mk 2 Node.null
        (Node.mk 3 Node.null (Node.mk 4 Node.null (Node.new 5))))))
      = Node.mk 5 (Node.mk 2 (Node.new 1) (Node.mk 4 (Node.new 3) Node.null)) Node.null ∧
    (pairing_heap.from_range [9, 5, 4, 3, 2, 1] int_less).pop.map (fun h => h.root)
      ≠ some (spec_two_pass int_less (child_list (Node.mk 1 Node.null (Node.mk 2 Node.null
          (Node.mk 3 Node.null (Node.mk 4 Node.null (Node.new 5))))))) ∧
    (pairing_heap.from_range [9, 5, 4, 3, 2, 1] int_less).pop.map (fun h => h.root)
      ≠ some (spec_two_pass int_less (child_list (Node.mk 1 Node.null (Node.mk 2 Node.null
          (Node.mk 3 Node.null (Node.mk 4 Node.null (Node.new 5)))))).reverse) ∧
    (pairing_heap.from_range [9, 5, 4, 3, 2, 1] int_less).pop.map (fun h => h.root)
      ≠ some (spec_fold_right_to_left_flipped int_less (spec_pair_left_to_right int_less
          (child_list (Node.mk 1 Node.null (Node.mk 2 Node.null
            (Node.mk 3 Node.null (Node.mk 4 Node.null (Node.new 5)))))))) ∧
    (pairing_heap.from_range [9, 5, 4, 3, 2, 1] int_less).pop.map (fun h => h.root)
      ≠ some (spec_fold_right_to_left_flipped int_less (spec_pair_left_to_right int_less
          (child_list (Node.mk 1 Node.null (Node.mk 2 Node.null
            (Node.mk 3 Node.null (Node.mk 4 Node.null (Node.new 5)))))).reverse)) := by
  decide

/-- C15 as amended: for every heap whose root has at least one child, the tree
that `pop()` installs as the new root is the tree produced by round-robin
pairing of the removed root's children taken from the last sibling to the
first: the two trees at the front of the sequence are melded and the result is
appended at the back, until exactly one tree remains. -/
theorem pop_installs_round_robin_pairing (h : pairing_heap α) (e ce : α) (cc cn n : Node α)
    (hroot : h.root = Node.mk e (Node.mk ce cc cn) n) (hne : h.empty = false) :
    ∃ r, meld_queue h.compare (child_list (Node.mk ce cc cn)).length
        (child_list (Node.mk ce cc cn)).reverse = some r ∧
      h.pop.map (fun h1 => h1.root) = some r ∧
      h.pop.map (fun h1 => h1.size) = some (h.size - 1) := by
  have hne2 : h.sizeOf ≠ 0 := by simpa [pairing_heap.empty] using hne
  obtain ⟨r, hr, hpop⟩ := pop_root_eq h e ce cc cn n hroot hne2
  exact ⟨r, hr, by rw [hpop]; rfl, by rw [hpop]; rfl⟩

/-- Witness of C15 as amended: the heap built from 9, 5, 4, 3, 2, 1. -/
theorem pop_installs_round_robin_pairing_witness :
    (pairing_heap.from_range [9, 5, 4, 3, 2, 1] int_less).root
      = Node.mk 9 (Node.mk 1 Node.null (Node.mk 2 Node.null (Node.mk 3 Node.null
          (Node.mk 4 Node.null (Node.new 5))))) Node.null ∧
    (pairing_heap.from_range [9, 5, 4, 3, 2, 1] int_less).empty = false ∧
    ∃ r, meld_queue (pairing_heap.from_range [9, 5, 4, 3, 2, 1] int_less).compare
        (child_list (Node.mk 1 Node.null (Node.mk 2 Node.null (Node.mk 3 Node.null
          (Node.mk 4 Node.null (Node.new 5)))))).length
        (child_list (Node.mk 1 Node.null (Node.mk 2 Node.null (Node.mk 3 Node.null
          (Node.mk 4 Node.null (Node.new 5)))))).reverse = some r ∧
      (pairing_heap.from_range [9, 5, 4, 3, 2, 1] int_less).pop.map (fun h1 => h1.root)
        = some r ∧
      (pairing_heap.from_range [9, 5, 4, 3, 2, 1] int_less).pop.map (fun h1 => h1.size)
        = some ((pairing_heap.from_range [9, 5, 4, 3, 2, 1] int_less).size - 1) :=
  ⟨by decide, by decide,
    pop_installs_round_robin_pairing (pairing_heap.from_range [9, 5, 4, 3, 2, 1] int_less)
      9 1 Node.null (Node.mk 2 Node.null (Node.mk 3 Node.null
        (Node.mk 4 Node.null (Node.new 5)))) Node.null (by decide) (by decide)⟩

/-! ## Back-references: the embedding with addresses -/

namespace Mem

/-- The root of the tree a pointer leads to has a null `parent`. -/
theorem exact_under_none_iff (t : Node (Cell α)) (hns : t.no_sibling = true) :
    exact_under none t = true ↔
      (∀ x c n, t = Node.mk x c n → x.parent = none) ∧ tree_exact t = true := by
  match t, hns with
  | .null, _ => simp [exact_under, tree_exact]
  | .mk x c .null, _ => simp [exact_under, tree_exact]

theorem meld_tree_addrs (compare : α → α → Bool) (a b : Node (Cell α)) :
    ((meld compare a b).tree_elems.map (fun c => c.addr)).Perm
      ((a.tree_elems ++ b.tree_elems).map (fun c => c.addr)) := by
  cases a with
  | null => simp [meld, Node.tree_elems]
  | mk x1 c1 n1 =>
    cases b with
    | null => simp [meld, Node.tree_elems]
    | mk x2 c2 n2 =>
      by_cases hcmp : compare x1.elt x2.elt = true
      · simp only [meld, hcmp, if_true, Node.tree_elems, Node.elems, List.map_cons,
          List.map_append, List.cons_append]
        apply Multiset.coe_eq_coe.1
        simp only [← Multiset.cons_coe, ← Multiset.coe_add, ← Multiset.singleton_add]
        abel
      · simp only [Bool.not_eq_true] at hcmp
        simp only [meld, hcmp, Bool.false_eq_true, if_false, Node.tree_elems, Node.elems,
          List.map_cons, List.map_append, List.cons_append]
        apply Multiset.coe_eq_coe.1
        simp only [← Multiset.cons_coe, ← Multiset.coe_add, ← Multiset.singleton_add]
        abel

theorem meld_tree_exact (compare : α → α → Bool) (a b : Node (Cell α))
    (ha : tree_exact a = true) (hb : tree_exact b = true) :
    tree_exact (meld compare a b) = true := by
  cases a with
  | null => simpa [meld] using hb
  | mk x1 c1 n1 =>
    cases b with
    | null => simpa [meld] using ha
    | mk x2 c2 n2 =>
      simp only [tree_exact] at ha hb
      by_cases hcmp : compare x1.elt x2.elt = true
      · simp [meld, hcmp, tree_exact, exact_under, ha, hb]
      · simp [meld, hcmp, tree_exact, exact_under, ha, hb]

theorem meld_cells_ne_null (compare : α → α → Bool) (a b : Node (Cell α))
    (ha : a ≠ Node.null) : meld compare a b ≠ Node.null := by
  cases a with
  | null => exact absurd rfl ha
  | mk x1 c1 n1 =>
    cases b with
    | null => simp [meld]
    | mk x2 c2 n2 =>
      by_cases hcmp : compare x1.elt x2.elt = true <;> simp [meld, hcmp]

/-- The meld of two trees whose roots have null `parent` and null `next` is
such a tree. -/
theorem meld_detached (compare : α → α → Bool) (a b : Node (Cell α))
    (ha : ∀ x c n, a = Node.mk x c n → x.parent = none ∧ n = Node.null)
    (hb : ∀ x c n, b = Node.mk x c n → x.parent = none ∧ n = Node.null) :
    ∀ x c n, meld compare a b = Node.mk x c n → x.parent = none ∧ n = Node.null := by
  cases a with
  | null => simpa [meld] using hb
  | mk x1 c1 n1 =>
    cases b with
    | null => simpa [meld] using ha
    | mk x2 c2 n2 =>
      intro x c n hm
      by_cases hcmp : compare x1.elt x2.elt = true
      · simp only [meld, hcmp, if_true, Node.mk.injEq] at hm
        obtain ⟨rfl, _, rfl⟩ := hm
        exact hb _ _ _ rfl
      · simp only [Bool.not_eq_true] at hcmp
        simp only [meld, hcmp, Bool.false_eq_true, if_false, Node.mk.injEq] at hm
        obtain ⟨rfl, _, rfl⟩ := hm
        exact ha _ _ _ rfl

theorem meld_queue_cells_spec (compare : α → α → Bool) (fuel : Nat) :
    ∀ l : List (Node (Cell α)), l ≠ [] → l.length ≤ fuel + 1 →
      ∃ out, meld_queue compare fuel l = some out ∧
        (out.tree_elems.map (fun c => c.addr)).Perm (forest_addrs l) ∧
        ((∀ t ∈ l, t ≠ Node.null) → out ≠ Node.null) ∧
        ((∀ t ∈ l, ∀ x c n, t = Node.mk x c n → x.parent = none ∧ n = Node.null) →
          ∀ x c n, out = Node.mk x c n → x.parent = none ∧ n = Node.null) ∧
        ((∀ t ∈ l, tree_exact t = true) → tree_exact out = true) := by
  induction fuel with
  | zero =>
    intro l hne hlen
    match l, hne, hlen with
    | [t], _, _ =>
      exact ⟨t, rfl, by simp [forest_addrs, forest_elems], fun h => h t (by simp),
        fun h => h t (by simp), fun h => h t (by simp)⟩
    | _ :: _ :: _, _, hlen => simp at hlen
  | succ fuel ih =>
    intro l hne hlen
    match l, hne, hlen with
    | [t], _, _ =>
      exact ⟨t, rfl, by simp [forest_addrs, forest_elems], fun h => h t (by simp),
        fun h => h t (by simp), fun h => h t (by simp)⟩
    | first :: second :: rest, _, hlen =>
      have hlen2 : (rest ++ [meld compare first second]).length ≤ fuel + 1 := by
        simp at hlen ⊢; omega
      obtain ⟨out, hout, hperm, hnn, hdet, hex⟩ :=
        ih (rest ++ [meld compare first second]) (by simp) hlen2
      refine ⟨out, by simpa [meld_queue] using hout, ?_, ?_, ?_, ?_⟩
      · refine hperm.trans ?_
        have h1 := meld_tree_addrs compare first second
        simp only [forest_addrs, forest_elems_append, forest_elems, List.append_nil,
          List.map_append] at h1 ⊢
        refine (List.perm_append_comm).trans ?_
        rw [← List.append_assoc]
        exact List.Perm.append_right _ h1
      · intro hall
        apply hnn
        intro t ht
        rcases List.mem_append.1 ht with ht | ht
        · exact hall t (by simp [ht])
        · simp only [List.mem_singleton] at ht
          subst ht
          exact meld_cells_ne_null compare first second (hall first (by simp))
      · intro hall
        apply hdet
        intro t ht
        rcases List.mem_append.1 ht with ht | ht
        · exact hall t (by simp [ht])
        · simp only [List.mem_singleton] at ht
          subst ht
          exact meld_detached compare first second (hall first (by simp)) (hall second (by simp))
      · intro hall
        apply hex
        intro t ht
        rcases List.mem_append.1 ht with ht | ht
        · exact hall t (by simp [ht])
        · simp only [List.mem_singleton] at ht
          subst ht
          exact meld_tree_exact compare first second (hall first (by simp)) (hall second (by simp))

theorem push_children_exact (pa : Option Nat) (t : Node (Cell α)) :
    ∀ acc : List (Node (Cell α)), exact_under pa t = true →
      (∀ x ∈ acc, tree_exact x = true) →
      ∀ x ∈ push_children t acc, tree_exact x = true := by
  induction t with
  | null => intro acc _ hacc; simpa [push_children] using hacc
  | mk e c n _ ihn =>
    intro acc ht hacc
    simp only [exact_under, Bool.and_eq_true] at ht
    simp only [push_children]
    apply ihn _ ht.2
    intro x hx
    rcases List.mem_cons.1 hx with hx | hx
    · subst hx; exact ht.1.2
    · exact hacc x hx

/-- What `swapper` builds: one fresh node per node of the tree, put in front of
the list, at addresses from the allocator's next address on, all different. -/
theorem swapper_cells_spec (t : Node (Cell α)) :
    ∀ (total : List (Node (Cell α))) (f : Nat),
      ∃ news, swapper t (total, f) = (news ++ total, f + t.count) ∧
        news.length = t.count ∧
        (∀ x ∈ news, ∃ a e, x = new_node a e) ∧
        (∀ a ∈ forest_addrs news, f ≤ a ∧ a < f + t.count) ∧
        (forest_addrs news).Nodup := by
  induction t with
  | null =>
    intro total f
    exact ⟨[], by simp [swapper, Node.count], rfl, by simp, by simp [forest_addrs, forest_elems],
      by simp [forest_addrs, forest_elems]⟩
  | mk x c n ihc ihn =>
    intro total f
    obtain ⟨n1, h1, l1, a1, b1, d1⟩ := ihc total f
    obtain ⟨n2, h2, l2, a2, b2, d2⟩ := ihn (n1 ++ total) (f + c.count)
    refine ⟨new_node (f + c.count + n.count) x.elt :: (n2 ++ n1), ?_, ?_, ?_, ?_, ?_⟩
    · simp only [swapper, h1, h2, Node.count]
      simp only [List.cons_append, List.append_assoc, Prod.mk.injEq, true_and]
      omega
    · simp [l1, l2, Node.count]; omega
    · intro y hy
      rcases List.mem_cons.1 hy with hy | hy
      · exact ⟨_, _, hy⟩
      · rcases List.mem_append.1 hy with hy | hy
        · exact a2 y hy
        · exact a1 y hy
    · intro a ha
      simp only [forest_addrs, forest_elems, new_node, Node.tree_elems, Node.elems,
        forest_elems_append, List.map_cons, List.map_append, List.cons_append,
        List.nil_append, List.mem_cons, List.mem_append] at ha
      simp only [Node.count]
      rcases ha with ha | ha | ha
      · omega
      · have := b2 a (by simpa [forest_addrs] using ha); omega
      · have := b1 a (by simpa [forest_addrs] using ha); omega
    · simp only [forest_addrs, forest_elems, new_node, Node.tree_elems, Node.elems,
        forest_elems_append, List.map_cons, List.map_append, List.cons_append,
        List.nil_append]
      refine List.nodup_cons.2 ⟨?_, ?_⟩
      · intro hmem
        rcases List.mem_append.1 hmem with hm | hm
        · have := b2 _ (by simpa [forest_addrs] using hm); omega
        · have := b1 _ (by simpa [forest_addrs] using hm); omega
      · refine List.Nodup.append (by simpa [forest_addrs] using d2)
          (by simpa [forest_addrs] using d1) ?_
        intro a ha2 ha1
        have r2 := b2 a (by simpa [forest_addrs] using ha2)
        have r1 := b1 a (by simpa [forest_addrs] using ha1)
        omega

end Mem

namespace Mem

theorem addrs_length (t : Node (Cell α)) : (addrs t).length = t.count := by
  simp [addrs, count_eq_length]

theorem parents_exact_cases (h : pairing_heap α) (hex : h.parents_exact = true) :
    h.root = Node.null ∨
      ∃ x c, h.root = Node.mk x c Node.null ∧ x.parent = none ∧
        exact_under (some x.addr) c = true := by
  simp only [pairing_heap.parents_exact, Bool.and_eq_true] at hex
  obtain ⟨h1, h2⟩ := hex
  match hr : h.root, h1, h2 with
  | .null, _, _ => exact Or.inl rfl
  | .mk x c .null, h1, _ =>
    simp only [hr, exact_under, Bool.and_true, Bool.and_eq_true, beq_iff_eq] at h1
    exact Or.inr ⟨x, c, rfl, h1.1, h1.2⟩
  | .mk x c (.mk _ _ _), _, h2 =>
    simp [Node.no_sibling] at h2

theorem empty_heap_invariant (comp : α → α → Bool) (fresh : Nat) :
    (pairing_heap.empty_heap comp fresh).invariant := by
  refine ⟨rfl, rfl, ?_, ?_⟩ <;> simp [pairing_heap.empty_heap, addrs, Node.elems]

theorem add_node_invariant (h : pairing_heap α) (val : α) (hinv : h.invariant) :
    (h.add_node val).1.invariant ∧ (h.add_node val).1.compare = h.compare := by
  obtain ⟨hsz, hex, hnd, hlt⟩ := hinv
  rcases parents_exact_cases h hex with hr | ⟨x, c, hr, hp, hc⟩
  · simp only [hr, Node.count] at hsz
    refine ⟨⟨?_, ?_, ?_, ?_⟩, ?_⟩ <;>
      simp [pairing_heap.add_node, hr, new_node, Node.count, hsz, pairing_heap.parents_exact,
        exact_under, Node.no_sibling, addrs, Node.elems]
  · simp only [hr, Node.count] at hsz
    simp only [hr, addrs, Node.elems, List.append_nil, List.map_cons, List.nodup_cons,
      List.mem_cons, forall_eq_or_imp] at hnd hlt
    have hfresh : ∀ a ∈ List.map (fun c => c.addr) c.elems, a ≠ h.fresh := by
      intro a ha e
      have := hlt.2 a ha
      omega
    have hfresh2 : h.fresh ∉ List.map (fun c => c.addr) c.elems := fun hm => hfresh _ hm rfl
    have hx : x.addr ≠ h.fresh := by have := hlt.1; omega
    by_cases hcmp : h.compare x.elt val = true
    · refine ⟨⟨?_, ?_, ?_, ?_⟩, ?_⟩
      · simp [pairing_heap.add_node, hr, meld, new_node, hcmp, Node.count, hsz]; omega
      · simp [pairing_heap.add_node, hr, meld, new_node, hcmp, pairing_heap.parents_exact,
          exact_under, Node.no_sibling, hc]
      · simp only [pairing_heap.add_node, hr, meld, new_node, hcmp, if_true, addrs,
          Node.elems, List.append_nil, List.map_cons, List.nodup_cons, List.mem_cons, not_or]
        exact ⟨⟨fun e => hx e.symm, hfresh2⟩, hnd⟩
      · simp only [pairing_heap.add_node, hr, meld, new_node, hcmp, if_true, addrs,
          Node.elems, List.append_nil, List.map_cons, List.mem_cons, forall_eq_or_imp]
        refine ⟨by omega, by have := hlt.1; omega, ?_⟩
        intro a ha
        have := hlt.2 a ha
        omega
      · simp [pairing_heap.add_node, hr]
    · simp only [Bool.not_eq_true] at hcmp
      refine ⟨⟨?_, ?_, ?_, ?_⟩, ?_⟩
      · simp [pairing_heap.add_node, hr, meld, new_node, hcmp, Node.count, hsz]; omega
      · simp [pairing_heap.add_node, hr, meld, new_node, hcmp, pairing_heap.parents_exact,
          exact_under, Node.no_sibling, hc, hp]
      · simp only [pairing_heap.add_node, hr, meld, new_node, hcmp, Bool.false_eq_true,
          if_false, addrs, Node.elems, List.append_nil, List.nil_append, List.map_cons,
          List.nodup_cons, List.mem_cons, not_or]
        exact ⟨⟨hx, hnd.1⟩, hfresh2, hnd.2⟩
      · simp only [pairing_heap.add_node, hr, meld, new_node, hcmp, Bool.false_eq_true,
          if_false, addrs, Node.elems, List.append_nil, List.nil_append, List.map_cons,
          List.mem_cons, forall_eq_or_imp]
        refine ⟨by have := hlt.1; omega, by omega, ?_⟩
        intro a ha
        have := hlt.2 a ha
        omega
      · simp [pairing_heap.add_node, hr]

theorem pop_invariant (h : pairing_heap α) (hinv : h.invariant) :
    ∃ h1, h.pop = some h1 ∧ h1.invariant ∧ h1.compare = h.compare := by
  by_cases h0 : h.sizeOf = 0
  · exact ⟨h, by simp [pairing_heap.pop, h0], hinv, rfl⟩
  obtain ⟨hsz, hex, hnd, hlt⟩ := hinv
  rcases parents_exact_cases h hex with hr | ⟨x, c, hr, hp, hc⟩
  · simp only [hr, Node.count] at hsz
    exact absurd hsz h0
  have hsz1 : h.sizeOf = 1 + c.count := by
    rw [hsz, hr]; simp [Node.count]
  have hnd1 : (addrs c).Nodup := by
    rw [hr] at hnd
    simp only [addrs, Node.elems, List.append_nil, List.map_cons, List.nodup_cons] at hnd
    exact hnd.2
  have hlt1 : ∀ a ∈ addrs c, a < h.fresh := by
    intro a ha
    apply hlt
    rw [hr]
    simp only [addrs, Node.elems, List.append_nil, List.map_cons, List.mem_cons]
    exact Or.inr ha
  cases c with
  | null =>
    simp only [Node.count] at hsz1
    refine ⟨{ h with sizeOf := h.sizeOf - 1, root := .null }, by simp [pairing_heap.pop, hr, h0],
      ⟨?_, rfl, ?_, ?_⟩, rfl⟩ <;> simp [hsz1, Node.count, addrs, Node.elems]
  | mk cx cc cn =>
    obtain ⟨out, hout, hperm, hnn, _, hext⟩ :=
      meld_queue_cells_spec h.compare _ (push_children cn [Node.mk cx cc cn])
        (push_children_ne_nil cn _ (by simp)) (Nat.le_succ _)
    have hout_ne : out ≠ Node.null := hnn (push_children_ne_null cn _ (by simp))
    have hperm2 : (out.tree_elems.map (fun c => c.addr)).Perm (addrs (Node.mk cx cc cn)) := by
      refine hperm.trans ?_
      have h1 := (push_children_elems cn [Node.mk cx cc cn]).map (fun c => c.addr)
      refine h1.trans ?_
      simp only [forest_elems, Node.tree_elems, Node.elems, List.append_nil, addrs,
        List.map_append, List.map_cons]
      exact List.perm_append_comm.trans (by simp)
    have hall : ∀ t ∈ push_children cn [Node.mk cx cc cn], tree_exact t = true := by
      simp only [exact_under, Bool.and_eq_true] at hc
      apply push_children_exact (some x.addr) cn _ hc.2
      intro t ht
      simp only [List.mem_singleton] at ht
      subst ht
      exact hc.1.2
    have hex_out := hext hall
    match out, hout_ne, hout, hperm2, hex_out with
    | .mk o oc _, _, hout, hperm2, hex_out =>
      have hperm3 : (addrs (Node.mk { o with parent := none } oc Node.null)).Perm
          (addrs (Node.mk cx cc cn)) := by
        simpa [addrs, Node.elems, Node.tree_elems] using hperm2
      refine ⟨{ h with sizeOf := h.sizeOf - 1,
                       root := .mk { o with parent := none } oc .null },
        by simp [pairing_heap.pop, hr, h0, hout], ⟨?_, ?_, ?_, ?_⟩, rfl⟩
      · have hl := hperm3.length_eq
        rw [addrs_length, addrs_length] at hl
        simp only
        omega
      · simpa [pairing_heap.parents_exact, exact_under, Node.no_sibling, tree_exact]
          using hex_out
      · exact hperm3.nodup_iff.2 hnd1
      · intro a ha
        exact hlt1 a (hperm3.subset ha)

end Mem

namespace Mem

/-- The rebuilding shared by `update_priorities` and the copy constructor, with
addresses: fresh nodes at the next addresses of the allocator, melded into one
tree with exact back-references. -/
theorem rebuild_cells_spec (compare : α → α → Bool) (x : Cell α) (c n : Node (Cell α))
    (f : Nat) :
    ∃ tot, meld_queue compare (swapper (Node.mk x c n) ([], f)).1.length
        (swapper (Node.mk x c n) ([], f)).1 = some tot ∧
      (swapper (Node.mk x c n) ([], f)).2 = f + (Node.mk x c n).count ∧
      tot.count = (Node.mk x c n).count ∧
      exact_under none tot = true ∧ tot.no_sibling = true ∧ (addrs tot).Nodup ∧
      ∀ a ∈ addrs tot, a < f + (Node.mk x c n).count := by
  obtain ⟨news, hsw, hlen, hnew, hrange, hnd⟩ := swapper_cells_spec (Node.mk x c n) [] f
  rw [hsw]
  simp only [List.append_nil]
  have hne : news ≠ [] := by
    intro e
    rw [e] at hlen
    simp only [Node.count, List.length_nil] at hlen
    omega
  obtain ⟨tot, htot, hperm, hnn, hdet, hex⟩ :=
    meld_queue_cells_spec compare _ news hne (Nat.le_succ _)
  have hdet1 := hdet (by
    intro t ht y cy ny e
    obtain ⟨a, v, hav⟩ := hnew t ht
    rw [hav] at e
    simp only [new_node, Node.mk.injEq] at e
    obtain ⟨e1, _, e3⟩ := e
    subst e1; subst e3
    exact ⟨rfl, rfl⟩)
  have hex1 := hex (by
    intro t ht
    obtain ⟨a, v, hav⟩ := hnew t ht
    rw [hav]; rfl)
  have hnn1 := hnn (by
    intro t ht
    obtain ⟨a, v, hav⟩ := hnew t ht
    rw [hav]; simp [new_node])
  match tot, hnn1, htot, hperm, hdet1, hex1 with
  | .mk y cy ny, _, htot, hperm, hdet1, hex1 =>
    obtain ⟨hp, hny⟩ := hdet1 y cy ny rfl
    subst hny
    have hperm2 : (addrs (Node.mk y cy Node.null)).Perm (forest_addrs news) := by
      simpa [addrs, Node.elems, Node.tree_elems] using hperm
    refine ⟨_, htot, trivial, ?_, ?_, rfl, hperm2.nodup_iff.2 hnd, ?_⟩
    · have hl := hperm2.length_eq
      rw [addrs_length] at hl
      rw [hl, ← hlen]
      have : ∀ l : List (Node (Cell α)), (∀ t ∈ l, ∃ a e, t = new_node a e) →
          (forest_addrs l).length = l.length := by
        intro l
        induction l with
        | nil => intro _; rfl
        | cons t ts ih =>
          intro hall
          obtain ⟨a, v, hav⟩ := hall t (by simp)
          have := ih (fun t1 ht1 => hall t1 (by simp [ht1]))
          simp only [forest_addrs] at this ⊢
          simp [forest_elems, hav, new_node, Node.tree_elems, Node.elems, this]
      exact this news hnew
    · simp only [tree_exact] at hex1
      simp [exact_under, hp, hex1]
    · intro a ha
      exact (hrange a (hperm2.subset ha)).2

theorem update_priorities_invariant (h : pairing_heap α) (hinv : h.invariant) :
    ∃ h1, h.update_priorities = some h1 ∧ h1.invariant ∧ h1.compare = h.compare := by
  by_cases h0 : h.sizeOf = 0
  · exact ⟨h, by simp [pairing_heap.update_priorities, h0], hinv, rfl⟩
  obtain ⟨hsz, hex, _, _⟩ := hinv
  rcases parents_exact_cases h hex with hr | ⟨x, c, hr, _, _⟩
  · simp only [hr, Node.count] at hsz
    exact absurd hsz h0
  obtain ⟨tot, htot, hf, hcnt, hex1, hns1, hnd1, hlt1⟩ :=
    rebuild_cells_spec h.compare x c Node.null h.fresh
  refine ⟨{ h with root := tot, fresh := (swapper (Node.mk x c Node.null) ([], h.fresh)).2 },
    by simp [pairing_heap.update_priorities, hr, h0, htot], ⟨?_, ?_, hnd1, ?_⟩, rfl⟩
  · simp only; rw [hcnt, hsz, hr]
  · simp [pairing_heap.parents_exact, hex1, hns1]
  · simp only; rw [hf]; exact hlt1

theorem copy_invariant (uninit_root : Node (Cell α)) (h : pairing_heap α)
    (hinv : h.invariant) (hne : h.sizeOf ≠ 0) :
    ∃ h1, pairing_heap.copy uninit_root h = some h1 ∧ h1.invariant ∧
      h1.compare = h.compare := by
  obtain ⟨hsz, hex, _, _⟩ := hinv
  rcases parents_exact_cases h hex with hr | ⟨x, c, hr, _, _⟩
  · simp only [hr, Node.count] at hsz
    exact absurd hsz hne
  obtain ⟨tot, htot, hf, hcnt, hex1, hns1, hnd1, hlt1⟩ :=
    rebuild_cells_spec h.compare x c Node.null h.fresh
  refine ⟨{ compare := h.compare, sizeOf := h.sizeOf, root := tot,
            fresh := (swapper (Node.mk x c Node.null) ([], h.fresh)).2 },
    by simp [pairing_heap.copy, hr, hne, htot], ⟨?_, ?_, hnd1, ?_⟩, rfl⟩
  · simp only; rw [hcnt, hsz, hr]
  · simp [pairing_heap.parents_exact, hex1, hns1]
  · simp only; rw [hf]; exact hlt1

theorem set_elt_exact (t : Node (Cell α)) :
    ∀ (pa : Option Nat) (p : Handle) (x : α),
      exact_under pa (set_elt t p x) = exact_under pa t := by
  induction t with
  | null => intro pa p x; rfl
  | mk c ch n ihc ihn =>
    intro pa p x
    match p with
    | [] => rfl
    | .child :: r => simp [set_elt, exact_under, ihc]
    | .next :: r => simp [set_elt, exact_under, ihn]

theorem set_elt_addrs (t : Node (Cell α)) :
    ∀ (p : Handle) (x : α), addrs (set_elt t p x) = addrs t := by
  induction t with
  | null => intro p x; rfl
  | mk c ch n ihc ihn =>
    intro p x
    simp only [addrs] at ihc ihn
    match p with
    | [] => rfl
    | .child :: r => simp [set_elt, addrs, Node.elems, ihc]
    | .next :: r => simp [set_elt, addrs, Node.elems, ihn]

theorem set_elt_no_sibling (t : Node (Cell α)) (p : Handle) (x : α) :
    (set_elt t p x).no_sibling = t.no_sibling := by
  match t, p with
  | .null, _ => rfl
  | .mk e c .null, [] => rfl
  | .mk e c (.mk _ _ _), [] => rfl
  | .mk e c .null, .child :: r => rfl
  | .mk e c (.mk _ _ _), .child :: r => rfl
  | .mk e c .null, .next :: r => rfl
  | .mk e c (.mk e1 c1 n1), .next :: r =>
    match r with
    | [] => rfl
    | .child :: _ => rfl
    | .next :: _ => rfl

/-- Whatever `set_elt` leaves alone, `updateElt` leaves alone. -/
theorem updateElt_keeps {β : Type} (F : Node (Cell α) → β)
    (hF : ∀ t p x, F (set_elt t p x) = F t) (h : pairing_heap α) (node : Option Handle)
    (v : α) : F (h.updateElt node v).root = F h.root := by
  have hb : ∀ (ups : List Handle) (root : Node (Cell α)) (cNode : Handle),
      F (bubble_up h.compare root ups cNode) = F root := by
    intro ups
    induction ups with
    | nil => intro root cNode; rfl
    | cons Parent up ih =>
      intro root cNode
      simp only [bubble_up]
      cases eltAt root Parent with
      | none => rfl
      | some p =>
        cases eltAt root cNode with
        | none => rfl
        | some c =>
          simp only
          split
          · rw [ih, hF, hF]
          · rfl
  cases node with
  | none => rfl
  | some node =>
    simp only [pairing_heap.updateElt]
    cases parents node with
    | nil => exact hF _ _ _
    | cons Parent up =>
      simp only
      cases eltAt (set_elt h.root node v) Parent with
      | none => exact hF _ _ _
      | some p =>
        simp only
        split
        · exact hF _ _ _
        · rw [hb, hF]

theorem updateElt_fields (h : pairing_heap α) (node : Option Handle) (v : α) :
    (h.updateElt node v).compare = h.compare ∧ (h.updateElt node v).sizeOf = h.sizeOf ∧
      (h.updateElt node v).fresh = h.fresh := by
  cases node with
  | none => exact ⟨rfl, rfl, rfl⟩
  | some node =>
    simp only [pairing_heap.updateElt]
    cases parents node with
    | nil => exact ⟨rfl, rfl, rfl⟩
    | cons Parent up =>
      simp only
      cases eltAt (set_elt h.root node v) Parent with
      | none => exact ⟨rfl, rfl, rfl⟩
      | some p =>
        simp only
        split <;> exact ⟨rfl, rfl, rfl⟩

theorem updateElt_invariant (h : pairing_heap α) (node : Option Handle) (v : α)
    (hinv : h.invariant) : (h.updateElt node v).invariant := by
  obtain ⟨hsz, hex, hnd, hlt⟩ := hinv
  obtain ⟨_, f2, f3⟩ := updateElt_fields h node v
  have ha := updateElt_keeps addrs (fun t p x => set_elt_addrs t p x) h node v
  have he := updateElt_keeps (exact_under none) (fun t p x => set_elt_exact t none p x) h node v
  have hn := updateElt_keeps Node.no_sibling (fun t p x => set_elt_no_sibling t p x) h node v
  refine ⟨?_, ?_, by rw [ha]; exact hnd, by rw [ha, f3]; exact hlt⟩
  · rw [f2, hsz, ← addrs_length, ← addrs_length, ha]
  · simp only [pairing_heap.parents_exact] at hex ⊢
    rw [he, hn]; exact hex

theorem step_invariant (h : pairing_heap α) (op : Op α) (hinv : h.invariant)
    (hadm : admissible h op = true) :
    ∃ h1, step h op = some h1 ∧ h1.invariant ∧ h1.compare = h.compare := by
  cases op with
  | push val => exact ⟨_, rfl, (add_node_invariant h val hinv).1, (add_node_invariant h val hinv).2⟩
  | pop => exact pop_invariant h hinv
  | update_priorities => exact update_priorities_invariant h hinv
  | updateElt node v =>
    exact ⟨_, rfl, updateElt_invariant h node v hinv, (updateElt_fields h node v).1⟩
  | copy uninit_root =>
    simp only [admissible, bne_iff_ne, ne_eq] at hadm
    exact copy_invariant uninit_root h hinv hadm

theorem run_invariant (ops : List (Op α)) :
    ∀ h : pairing_heap α, h.invariant → all_admissible h ops = true →
      ∃ h1, run h ops = some h1 ∧ h1.invariant ∧ h1.compare = h.compare := by
  induction ops with
  | nil => intro h hinv _; exact ⟨h, rfl, hinv, rfl⟩
  | cons op ops ih =>
    intro h hinv hadm
    simp only [all_admissible, Bool.and_eq_true] at hadm
    obtain ⟨h1, hstep, hinv1, hc1⟩ := step_invariant h op hinv hadm.1
    have h2 := hadm.2
    rw [hstep] at h2
    obtain ⟨h3, hrun, hinv3, hc3⟩ := ih h1 hinv1 h2
    exact ⟨h3, by simp [run, hstep, hrun], hinv3, hc3.trans hc1⟩

theorem from_range_invariant (comp : α → α → Bool) (fresh : Nat) (range : List α) :
    (pairing_heap.from_range range comp fresh).invariant := by
  have key : ∀ (l : List α) (h : pairing_heap α), h.invariant →
      (l.foldl (fun h x => (h.add_node x).1) h).invariant := by
    intro l
    induction l with
    | nil => intro h hinv; exact hinv
    | cons x l ih => intro h hinv; exact ih _ (add_node_invariant h x hinv).1
  exact key range _ (empty_heap_invariant comp fresh)

end Mem

namespace Mem

/-- The recursive check `exact_under` says that the `parent` field of every
node is the address of the node its handle has as parent, the nodes of the top
chain having the parent address `pa`. -/
theorem exact_under_iff (pa : Option Nat) (t : Node (Cell α)) :
    exact_under pa t = true ↔
      ∀ (q : Handle) (x : Cell α), eltAt t q = some x →
        x.parent = (match parentOf q with
          | some P => (eltAt t P).map (fun c => c.addr)
          | none => pa) := by
  induction t generalizing pa with
  | null => simp [exact_under, eltAt]
  | mk c ch n ihc ihn =>
    simp only [exact_under, Bool.and_eq_true, beq_iff_eq]
    rw [ihc, ihn]
    constructor
    · rintro ⟨⟨h1, h2⟩, h3⟩ q x hq
      match q, hq with
      | [], hq =>
        simp only [eltAt, Option.some.injEq] at hq
        subst hq
        simpa [parentOf_nil] using h1
      | .child :: r, hq =>
        simp only [eltAt] at hq
        rw [parentOf_cons]
        have := h2 r x hq
        cases hr : parentOf r with
        | none => rw [hr] at this; simpa [eltAt] using this
        | some P => rw [hr] at this; simpa [eltAt] using this
      | .next :: r, hq =>
        simp only [eltAt] at hq
        rw [parentOf_cons]
        have := h3 r x hq
        cases hr : parentOf r with
        | none => rw [hr] at this; simpa [eltAt] using this
        | some P => rw [hr] at this; simpa [eltAt] using this
    · intro hall
      refine ⟨⟨?_, ?_⟩, ?_⟩
      · simpa [parentOf_nil, eltAt] using hall [] c rfl
      · intro r x hq
        have := hall (.child :: r) x (by simpa [eltAt] using hq)
        rw [parentOf_cons] at this
        cases hr : parentOf r with
        | none => rw [hr] at this; simpa [eltAt] using this
        | some P => rw [hr] at this; simpa [eltAt] using this
      · intro r x hq
        have := hall (.next :: r) x (by simpa [eltAt] using hq)
        rw [parentOf_cons] at this
        cases hr : parentOf r with
        | none => rw [hr] at this; simpa [eltAt] using this
        | some P => rw [hr] at this; simpa [eltAt] using this

/-- What the invariant says node by node: the root has null `parent` and null
`next`; the `parent` field of any other node is the address of the node that
owns the children list it is on; and no two nodes share an address, so that
field points at that node and at no other. -/
theorem invariant_pointwise (h : pairing_heap α) (hinv : h.invariant) :
    h.root.no_sibling = true ∧
    (∀ x, eltAt h.root [] = some x → x.parent = none) ∧
    (∀ (q P : Handle) (x p : Cell α), parentOf q = some P → eltAt h.root q = some x →
      eltAt h.root P = some p → x.parent = some p.addr) ∧
    (∀ (q1 q2 : Handle) (x1 x2 : Cell α), eltAt h.root q1 = some x1 →
      eltAt h.root q2 = some x2 → x1.addr = x2.addr → q1 = q2) := by
  obtain ⟨_, hex, hnd, _⟩ := hinv
  simp only [pairing_heap.parents_exact, Bool.and_eq_true] at hex
  have hpt := (exact_under_iff none h.root).1 hex.1
  refine ⟨hex.2, ?_, ?_, ?_⟩
  · intro x hx
    simpa [parentOf_nil] using hpt [] x hx
  · intro q P x p hq hx hp
    have := hpt q x hx
    simpa [hq, hp] using this
  · intro q1 q2 x1 x2 h1 h2 hadd
    by_contra hne
    obtain ⟨l, hl⟩ := eltAt_two h1 h2 hne
    have hp := hl.map (fun c => c.addr)
    have hnd2 := hp.nodup_iff.1 hnd
    simp only [List.map_cons, List.nodup_cons, List.mem_cons, not_or] at hnd2
    exact hnd2.1.1 hadd

/-! ### The two embeddings agree -/

theorem forget_meld (compare : α → α → Bool) (a b : Node (Cell α)) :
    forget (meld compare a b) = PairingHeap.meld compare (forget a) (forget b) := by
  cases a with
  | null => cases b <;> rfl
  | mk x1 c1 n1 =>
    cases b with
    | null => rfl
    | mk x2 c2 n2 =>
      by_cases hcmp : compare x1.elt x2.elt = true
      · simp [meld, PairingHeap.meld, forget, hcmp]
      · simp [meld, PairingHeap.meld, forget, hcmp]

theorem forget_meld_queue (compare : α → α → Bool) (fuel : Nat) :
    ∀ l : List (Node (Cell α)),
      (meld_queue compare fuel l).map forget =
        PairingHeap.meld_queue compare fuel (l.map forget) := by
  induction fuel with
  | zero =>
    intro l
    match l with
    | [] => rfl
    | [t] => rfl
    | _ :: _ :: _ => rfl
  | succ fuel ih =>
    intro l
    match l with
    | [] => rfl
    | [t] => rfl
    | first :: second :: rest =>
      simp only [List.map_cons, meld_queue, PairingHeap.meld_queue]
      rw [ih]
      simp [forget_meld]

theorem forget_push_children (t : Node (Cell α)) :
    ∀ acc : List (Node (Cell α)),
      (push_children t acc).map forget = push_children (forget t) (acc.map forget) := by
  induction t with
  | null => intro acc; rfl
  | mk x c n _ ihn =>
    intro acc
    simp only [push_children, forget]
    rw [ihn]
    simp [forget]

theorem forget_swapper (t : Node (Cell α)) :
    ∀ (total : List (Node (Cell α))) (f : Nat),
      (swapper t (total, f)).1.map forget = PairingHeap.swapper (forget t) (total.map forget) := by
  induction t with
  | null => intro total f; rfl
  | mk x c n ihc ihn =>
    intro total f
    simp only [swapper, PairingHeap.swapper, forget, List.map_cons]
    have h1 := ihc total f
    have h2 := ihn (swapper c (total, f)).1 (swapper c (total, f)).2
    rw [← h1, ← h2]
    simp [new_node, Node.new, forget]

theorem forget_eltAt (t : Node (Cell α)) :
    ∀ q : Handle, eltAt (forget t) q = (eltAt t q).map (fun c => c.elt) := by
  induction t with
  | null => intro q; rfl
  | mk x c n ihc ihn =>
    intro q
    match q with
    | [] => rfl
    | .child :: r => simpa [forget, eltAt] using ihc r
    | .next :: r => simpa [forget, eltAt] using ihn r

theorem forget_set_elt (t : Node (Cell α)) :
    ∀ (p : Handle) (x : α), forget (set_elt t p x) = setElt (forget t) p x := by
  induction t with
  | null => intro p x; rfl
  | mk c ch n ihc ihn =>
    intro p x
    match p with
    | [] => rfl
    | .child :: r => simp [set_elt, setElt, forget, ihc]
    | .next :: r => simp [set_elt, setElt, forget, ihn]

theorem forget_bubble_up (compare : α → α → Bool) (ups : List Handle) :
    ∀ (root : Node (Cell α)) (cNode : Handle),
      forget (bubble_up compare root ups cNode) =
        PairingHeap.bubble_up compare (forget root) ups cNode := by
  induction ups with
  | nil => intro root cNode; rfl
  | cons Parent up ih =>
    intro root cNode
    simp only [bubble_up, PairingHeap.bubble_up, forget_eltAt]
    cases eltAt root Parent with
    | none => rfl
    | some p =>
      cases eltAt root cNode with
      | none => rfl
      | some c =>
        simp only [Option.map_some']
        split
        · rw [ih, forget_set_elt, forget_set_elt]
        · rfl

/-- Forgetting addresses and `parent` fields turns each operation of this
embedding into the operation of the first one. -/
theorem forget_operations (h : pairing_heap α) :
    (∀ val, (h.add_node val).1.forget = (h.forget.add_node val).1) ∧
    (h.pop.map pairing_heap.forget = h.forget.pop) ∧
    (h.update_priorities.map pairing_heap.forget = h.forget.update_priorities) ∧
    (∀ node v, (h.updateElt node v).forget = h.forget.updateElt node v) ∧
    (∀ u, (pairing_heap.copy u h).map pairing_heap.forget =
      PairingHeap.pairing_heap.copy (forget u) h.forget) := by
  refine ⟨?_, ?_, ?_, ?_, ?_⟩
  · intro val
    cases hr : h.root with
    | null =>
      simp [pairing_heap.add_node, PairingHeap.pairing_heap.add_node, pairing_heap.forget, hr,
        forget, new_node, Node.new]
    | mk x c n =>
      simp only [pairing_heap.add_node, PairingHeap.pairing_heap.add_node, pairing_heap.forget,
        hr, forget, forget_meld]
      simp [new_node, Node.new, forget]
  · simp only [pairing_heap.pop, PairingHeap.pairing_heap.pop, pairing_heap.forget]
    by_cases h0 : h.sizeOf = 0
    · simp [h0, pairing_heap.forget]
    · simp only [h0, if_false]
      match hr : h.root with
      | .null => simp [forget]
      | .mk x .null n => simp [forget, pairing_heap.forget]
      | .mk x (.mk cx cc cn) n =>
        simp only [forget]
        have hq := forget_meld_queue h.compare (push_children cn [Node.mk cx cc cn]).length
          (push_children cn [Node.mk cx cc cn])
        rw [forget_push_children] at hq
        simp only [List.map_cons, List.map_nil, forget] at hq
        have hlen : (push_children (forget cn) [Node.mk cx.elt (forget cc) (forget cn)]).length
            = (push_children cn [Node.mk cx cc cn]).length := by
          have := congrArg List.length (forget_push_children cn [Node.mk cx cc cn])
          simp only [List.length_map, List.map_cons, List.map_nil, forget] at this
          exact this.symm
        rw [hlen, ← hq]
        cases meld_queue h.compare (push_children cn [Node.mk cx cc cn]).length
            (push_children cn [Node.mk cx cc cn]) with
        | none => rfl
        | some out =>
          cases out with
          | null => rfl
          | mk o oc onx => simp [forget, pairing_heap.forget]
  · simp only [pairing_heap.update_priorities, PairingHeap.pairing_heap.update_priorities,
      pairing_heap.forget]
    by_cases h0 : h.sizeOf = 0
    · simp [h0, pairing_heap.forget]
    · simp only [h0, if_false]
      match hr : h.root with
      | .null => simp [forget]
      | .mk x c n =>
        simp only [forget]
        have hs := forget_swapper (Node.mk x c n) [] h.fresh
        simp only [List.map_nil, forget] at hs
        have hq := forget_meld_queue h.compare (swapper (Node.mk x c n) ([], h.fresh)).1.length
          (swapper (Node.mk x c n) ([], h.fresh)).1
        rw [hs] at hq
        have hlen : (PairingHeap.swapper (Node.mk x.elt (forget c) (forget n)) []).length
            = (swapper (Node.mk x c n) ([], h.fresh)).1.length := by
          rw [← hs]; simp
        rw [hlen, ← hq]
        cases meld_queue h.compare (swapper (Node.mk x c n) ([], h.fresh)).1.length
            (swapper (Node.mk x c n) ([], h.fresh)).1 with
        | none => rfl
        | some tot => rfl
  · intro node v
    cases node with
    | none => rfl
    | some node =>
      simp only [pairing_heap.updateElt, PairingHeap.pairing_heap.updateElt,
        pairing_heap.forget, ← forget_set_elt, forget_eltAt]
      cases parents node with
      | nil => rfl
      | cons Parent up =>
        simp only
        cases eltAt (set_elt h.root node v) Parent with
        | none => rfl
        | some p =>
          simp only [Option.map_some']
          split
          · rfl
          · simp [forget_bubble_up]
  · intro u
    simp only [pairing_heap.copy, PairingHeap.pairing_heap.copy, pairing_heap.forget]
    by_cases h0 : h.sizeOf = 0
    · simp [h0, pairing_heap.forget]
    · simp only [h0, if_false]
      match hr : h.root with
      | .null => simp [forget]
      | .mk x c n =>
        simp only [forget]
        have hs := forget_swapper (Node.mk x c n) [] h.fresh
        simp only [List.map_nil, forget] at hs
        have hq := forget_meld_queue h.compare (swapper (Node.mk x c n) ([], h.fresh)).1.length
          (swapper (Node.mk x c n) ([], h.fresh)).1
        rw [hs] at hq
        have hlen : (PairingHeap.swapper (Node.mk x.elt (forget c) (forget n)) []).length
            = (swapper (Node.mk x c n) ([], h.fresh)).1.length := by
          rw [← hs]; simp
        rw [hlen, ← hq]
        cases meld_queue h.compare (swapper (Node.mk x c n) ([], h.fresh)).1.length
            (swapper (Node.mk x c n) ([], h.fresh)).1 with
        | none => rfl
        | some tot => rfl

end Mem

namespace Mem

/-- The part of C19 the code keeps: in every heap obtained from the default or
the range constructor by `push`, `pop`, `updateElt` on live nodes,
`update_priorities` and copy construction from a non-empty heap, the root has
null `parent` and null `next`, every node of a children list has the address
of the owner of the list in `parent`, and that address belongs to no other
node. -/
theorem back_references_exact (comp : α → α → Bool) (fresh : Nat) (range : List α)
    (ops : List (Op α))
    (hadm : all_admissible (pairing_heap.from_range range comp fresh) ops = true) :
    ∃ h, run (pairing_heap.from_range range comp fresh) ops = some h ∧
      h.root.no_sibling = true ∧
      (∀ x, eltAt h.root [] = some x → x.parent = none) ∧
      (∀ (q P : Handle) (x p : Cell α), parentOf q = some P → eltAt h.root q = some x →
        eltAt h.root P = some p → x.parent = some p.addr) ∧
      (∀ (q1 q2 : Handle) (x1 x2 : Cell α), eltAt h.root q1 = some x1 →
        eltAt h.root q2 = some x2 → x1.addr = x2.addr → q1 = q2) := by
  obtain ⟨h, hrun, hinv, _⟩ :=
    run_invariant ops _ (from_range_invariant comp fresh range) hadm
  exact ⟨h, hrun, invariant_pointwise h hinv⟩

/-- C19, the failing case: a heap copy-constructed from an empty heap keeps
whatever pointer lay where `root` is stored.  With a released node there
(address 100, element 7, `parent` still holding the address 42 of a former
parent) the copy has size 0 and that root, and `push(1)` melds the new node
under it: the heap then has a root whose `parent` is not null.  The same calls
on a copy whose storage held a null pointer give exact back-references. -/
theorem copy_of_empty_breaks_back_references :
    (pairing_heap.copy (Node.mk (Cell.mk 100 (7 : Int) (some 42)) Node.null Node.null)
        (pairing_heap.empty_heap int_less 0)).map
        (fun c => ((c.add_node 1).1.root, (c.add_node 1).1.parents_exact))
      = some (Node.mk (Cell.mk 100 (7 : Int) (some 42))
          (Node.mk (Cell.mk 0 (1 : Int) (some 100)) Node.null Node.null) Node.null,
        false) ∧
    (pairing_heap.copy (Node.null : Node (Cell Int)) (pairing_heap.empty_heap int_less 0)).map
        (fun c => ((c.add_node 1).1.root, (c.add_node 1).1.parents_exact))
      = some (Node.mk (Cell.mk 0 (1 : Int) none) Node.null Node.null, true) := by
  decide

end Mem

end PairingHeap
